import Mathlib

/-!
Shallow embedding of the WordlePlay engine (src/Result.hpp, src/WordleEngine.hpp,
src/Wordle-CommandLine.cpp).  Words are modelled as lists of letter ids
(0..25, the image of `WordleEngine::ToID` on the lowercase words kept by `Load`);
machine integers are modelled as `Nat`, with explicit `% 2 ^ 64` where the C++
`size_t` arithmetic can wrap.
-/

namespace WordlePlay

/-! ## Definitions: the embedding of the engine -/

/-- Embedding of `Result::PositionResult` (src/Result.hpp line 12). -/
inductive PositionResult where
  | NOWHERE
  | ELSEWHERE
  | HERE
  | NONE
deriving DecidableEq

namespace PositionResult

/-- Numeric value of the enum constant, as used by `Result::CalcID`. -/
def toNat : PositionResult → Nat
  | NOWHERE => 0
  | ELSEWHERE => 1
  | HERE => 2
  | NONE => 3

/-- Embedding of the `static_cast<PositionResult>` of a base-3 digit in
`Result::LookupResult`. -/
def ofDigit (n : Nat) : PositionResult :=
  if n = 0 then NOWHERE else if n = 1 then ELSEWHERE else if n = 2 then HERE else NONE

end PositionResult

/-- A dictionary word: the list of its letter ids (`ToID` of each character). -/
abbrev Word := List Nat

/-- Letter ids of a lowercase string, as computed by `WordleEngine::ToID`. -/
def strToWord (s : String) : Word := s.toList.map (fun c => c.toNat - 97)

/-- Embedding of the accumulator loop of `Result::CalcID` (src/Result.hpp 52-58):
`id += r * base; base *= 3`. -/
def calcIDFrom : List PositionResult → Nat → Nat → Nat
  | [], _, acc => acc
  | r :: rest, base, acc => calcIDFrom rest (base * 3) (acc + r.toNat * base)

/-- Embedding of `Result::CalcID`: encode an outcome sequence as its id. -/
def calcID (rs : List PositionResult) : Nat := calcIDFrom rs 1 0

/-- Embedding of the digit loop of `Result::LookupResult` (src/Result.hpp 36-45):
positions are decoded from the most significant digit down, and the digit of
position `pos` is stored at index `pos` of the sequence. -/
def lookupDigits : Nat → Nat → List PositionResult
  | 0, _ => []
  | L + 1, tmp =>
    let magnitude := 3 ^ L
    let cur := tmp / magnitude
    lookupDigits L (tmp - cur * magnitude) ++ [PositionResult.ofDigit cur]

/-- One entry of the matching state of `Result::Result(guess, answer)`:
the answer letter at a position together with its `used` flag. -/
abbrev MatchState := List (Nat × Bool)

/-- Embedding of the inner `j` loop of `Result::Result(guess, answer)`
(src/Result.hpp 109-116): scan for the first not-yet-used occurrence of letter
`g` in the answer; if found, mark it used and return the updated state. -/
def consume (g : Nat) : MatchState → Option MatchState
  | [] => none
  | (a, u) :: rest =>
    if !u && a == g then some ((a, true) :: rest)
    else (consume g rest).map (fun st => (a, u) :: st)

/-- Embedding of the outer `i` loop of `Result::Result(guess, answer)`
(src/Result.hpp 106-118): positions matched exactly keep HERE; every other
position seeks its guess letter elsewhere in the answer. -/
def pass2 : List (Nat × Nat) → MatchState → List PositionResult
  | [], _ => []
  | (g, a) :: rest, st =>
    if g = a then PositionResult.HERE :: pass2 rest st
    else
      match consume g st with
      | some st2 => PositionResult.ELSEWHERE :: pass2 rest st2
      | none => PositionResult.NOWHERE :: pass2 rest st

/-- Embedding of the first loop of `Result::Result(guess, answer)`
(src/Result.hpp 102-104): exact matches are marked used from the start. -/
def initState (guess answer : Word) : MatchState :=
  (guess.zip answer).map (fun p => (p.2, p.1 == p.2))

/-- Embedding of `Result::Result(guess, answer)`: the outcome sequence of a
guess compared against an answer. -/
def compare (guess answer : Word) : List PositionResult :=
  pass2 (guess.zip answer) (initState guess answer)

/-- The id (`Result::GetID`) of `Result(guess, answer)`. -/
def resultCode (guess answer : Word) : Nat := calcID (compare guess answer)

/-- Embedding of `Result::IsValid(word)` (src/Result.hpp 143-158): a result is
invalid for `word` when a position marked NOWHERE is followed by a position
marked ELSEWHERE that holds the same letter of `word`. -/
def isValid (rs : List PositionResult) (word : Word) : Bool :=
  (word.length == rs.length) &&
    ((List.range rs.length).all fun pos =>
      (List.range rs.length).all fun pos2 =>
        !(decide (pos < pos2) && (rs.getD pos .NONE == .NOWHERE)
          && (rs.getD pos2 .NONE == .ELSEWHERE)
          && (word.getD pos 26 == word.getD pos2 26)))

/-- Number of not-yet-used occurrences of letter `c` in the matching state. -/
def supply (c : Nat) (st : MatchState) : Nat :=
  st.countP fun p => p.1 == c && !p.2

/-- Tagged positions: a `(guess letter, answer letter)` pair with its outcome. -/
abbrev TaggedPos := (Nat × Nat) × PositionResult

/-- Number of ELSEWHERE outcomes attached to guess letter `c`. -/
def eCount (c : Nat) (rem : List TaggedPos) : Nat :=
  rem.countP fun x => x.1.1 == c && x.2 == PositionResult.ELSEWHERE

/-- Some NOWHERE outcome is attached to guess letter `c`. -/
def failIn (c : Nat) (rem : List TaggedPos) : Prop :=
  ∃ x ∈ rem, x.1.1 = c ∧ x.2 = PositionResult.NOWHERE

/-- No NOWHERE outcome of a guess letter is followed by an ELSEWHERE outcome of
the same guess letter. -/
def goodOrderT : List TaggedPos → Prop
  | [] => True
  | x :: rest =>
      (x.2 = PositionResult.NOWHERE →
        ∀ y ∈ rest, ¬(y.1.1 = x.1.1 ∧ y.2 = PositionResult.ELSEWHERE)) ∧
      goodOrderT rest

/-- Embedding of the `letter_counts` accumulation in
`WordleEngine::ProcessResultGroup` (src/WordleEngine.hpp 733-745): the number of
HERE or ELSEWHERE positions of the guess holding letter `c`. -/
def obsCount (guess : Word) (result : List PositionResult) (c : Nat) : Nat :=
  (guess.zip result).countP fun p =>
    p.1 == c && (p.2 == PositionResult.HERE || p.2 == PositionResult.ELSEWHERE)

/-- Embedding of the `letter_fail` bit of `WordleEngine::ProcessResultGroup`
(src/WordleEngine.hpp 741-744): some NOWHERE position of the guess holds `c`. -/
def letterFail (guess : Word) (result : List PositionResult) (c : Nat) : Bool :=
  (guess.zip result).any fun p => p.1 == c && p.2 == PositionResult.NOWHERE

/-- Number of HERE outcomes attached to guess letter `c`. -/
def hCount (c : Nat) (rem : List TaggedPos) : Nat :=
  rem.countP fun x => x.1.1 == c && x.2 == PositionResult.HERE

/-- The three per-position and per-letter facts that characterise membership of
an answer `w` in the result group of `(guess, result)`. -/
def matchConds (guess w : Word) (result : List PositionResult) : Prop :=
  (∀ x ∈ (guess.zip w).zip result, (x.2 = PositionResult.HERE ↔ x.1.1 = x.1.2)) ∧
  (∀ c, letterFail guess result c = true → w.count c = obsCount guess result c) ∧
  (∀ c, letterFail guess result c = false → 0 < obsCount guess result c →
    obsCount guess result c ≤ w.count c)

/-- The word with id `i` (`words[i].word` in `WordleEngine`). -/
def wordAt (dict : List Word) (i : Nat) : Word := dict.getD i []

/-- Contents of the index `pos_clues[pos].here[letter]` built by
`WordleEngine::ProcessClues` (src/WordleEngine.hpp 703-707): ids of words whose
letter at position `pos` is `letter`. -/
def hereSet (dict : List Word) (pos letter : Nat) : Finset Nat :=
  (Finset.range dict.length).filter fun i => (wordAt dict i).getD pos 26 = letter

/-- Contents of the index `let_clues[letter].exactly[k]` built by
`WordleEngine::ProcessClues` (src/WordleEngine.hpp 695-697): ids of words
holding `letter` exactly `k` times. -/
def exactlySet (dict : List Word) (letter k : Nat) : Finset Nat :=
  (Finset.range dict.length).filter fun i => (wordAt dict i).count letter = k

/-- Contents of the index `let_clues[letter].at_least[k]`: a word id is added for
every `k` from 1 up to its letter count (src/WordleEngine.hpp 698-700), so the
set holds ids whose count is at least `k ≥ 1`, and `at_least[0]` stays empty. -/
def atLeastSet (dict : List Word) (letter k : Nat) : Finset Nat :=
  (Finset.range dict.length).filter fun i =>
    1 ≤ k ∧ k ≤ (wordAt dict i).count letter

/-- The HERE sets pushed onto `intersect_sets` by the position loop of
`WordleEngine::ProcessResultGroup` (src/WordleEngine.hpp 733-745). -/
def intersectHereSets (dict : List Word) (guess : Word)
    (result : List PositionResult) : List (Finset Nat) :=
  (List.range guess.length).filterMap fun i =>
    if result.getD i .NONE = PositionResult.HERE then
      some (hereSet dict i (guess.getD i 26))
    else none

/-- The letter-frequency sets pushed onto `intersect_sets` by the letter loop of
`WordleEngine::ProcessResultGroup` (src/WordleEngine.hpp 747-759). -/
def letterSets (dict : List Word) (guess : Word)
    (result : List PositionResult) : List (Finset Nat) :=
  (List.range 26).filterMap fun c =>
    if letterFail guess result c then
      some (exactlySet dict c (obsCount guess result c))
    else if 0 < obsCount guess result c then
      some (atLeastSet dict c (obsCount guess result c))
    else none

/-- The sets pushed onto `exclude_sets` for ELSEWHERE and NOWHERE positions by
`WordleEngine::ProcessResultGroup` (src/WordleEngine.hpp 738-744). -/
def excludeSets (dict : List Word) (guess : Word)
    (result : List PositionResult) : List (Finset Nat) :=
  (List.range guess.length).filterMap fun i =>
    if result.getD i .NONE = PositionResult.ELSEWHERE
        ∨ result.getD i .NONE = PositionResult.NOWHERE then
      some (hereSet dict i (guess.getD i 26))
    else none

/-- Embedding of `WordleEngine::ProcessResultGroup` (src/WordleEngine.hpp
721-767): start from the first intersection set, intersect the remaining ones,
then subtract every exclusion set in order.  (The C++ reads `intersect_sets[0]`
unconditionally; with an empty intersection list the embedding returns `∅`.) -/
def processResultGroup (dict : List Word) (guess : Word)
    (result : List PositionResult) : Finset Nat :=
  match intersectHereSets dict guess result ++ letterSets dict guess result with
  | [] => ∅
  | s :: rest => (excludeSets dict guess result).foldl (· \ ·) (rest.foldl (· ∩ ·) s)

/-- Well-formedness of a loaded dictionary: a positive word size, and every word
of that size, over letters `a..z`, with no letter repeated more than
`MAX_LETTER_REPEAT = 4` times (the bound the C++ index arrays assume). -/
abbrev WFDict (dict : List Word) (L : Nat) : Prop :=
  0 < L ∧ ∀ w ∈ dict, w.length = L ∧ (∀ c ∈ w, c < 26) ∧ (∀ c ∈ w, w.count c ≤ 4)

/-- Embedding of the partition built for one guess by `WordleEngine::ProcessWords`
(src/WordleEngine.hpp 779-791): for each result id in order, the surviving word
group when the result is valid for the guess, else the empty group. -/
def buildFull (dict : List Word) (L : Nat) (guess : Word) : List (Finset Nat) :=
  (List.range (3 ^ L)).map fun rid =>
    if isValid (lookupDigits L rid) guess then
      processResultGroup dict guess (lookupDigits L rid)
    else ∅

/-- Embedding of `WordleEngine::AddClue` (src/WordleEngine.hpp 367-373):
intersect the current options with the guess's stored result group for the
clue's result id (`next_words.GetGroup(result.GetID())`). -/
def addClue (dict : List Word) (L : Nat) (cur : Finset Nat) (guess : Word)
    (result : List PositionResult) : Finset Nat :=
  cur ∩ (buildFull dict L guess).getD (calcID result) ∅

/-- Embedding of `WordleEngine::MAX_LETTER_REPEAT` (src/WordleEngine.hpp 260). -/
def MAX_LETTER_REPEAT : Nat := 4

/-- The largest index into the `at_least`/`exactly` arrays that `ProcessClues`
uses while indexing word `w` for letter `c` (src/WordleEngine.hpp 695-701):
`exactly[cur_count]` is accessed and `at_least[k]` for every `k ≤ cur_count`,
where `cur_count` is the exact letter count — the code performs no clamping. -/
def clueIndexBound (w : Word) (c : Nat) : Nat := w.count c

/-- Embedding of the position-pattern filtering of
`WordleEngine::FilterPattern` (src/WordleEngine.hpp 384-433), restricted to
patterns of dots and single letters (`none` is `.`): intersect with the
positional clue set for every lettered position. -/
def filterPattern (dict : List Word) (ids : Finset Nat)
    (pattern : List (Option Nat)) : Finset Nat :=
  (List.range pattern.length).foldl
    (fun out pos =>
      match pattern.getD pos none with
      | none => out
      | some c => out ∩ hereSet dict pos c)
    ids

/-- Embedding of the inclusion loop of `WordleEngine::FilterWords`
(src/WordleEngine.hpp 479-484): walk the include letters, counting repeats, and
intersect with `at_least[count]` at each step. -/
def filterIncl (dict : List Word) : List Nat → (Nat → Nat) → Finset Nat → Finset Nat
  | [], _, out => out
  | c :: rest, cnt, out =>
      filterIncl dict rest (fun d => if d = c then cnt d + 1 else cnt d)
        (out ∩ atLeastSet dict c (cnt c + 1))

/-- Embedding of the exclusion loop of `WordleEngine::FilterWords`
(src/WordleEngine.hpp 488-491): intersect with `exactly[include_count[c]]` for
every excluded letter. -/
def filterExcl (dict : List Word) (cnt : Nat → Nat) :
    List Nat → Finset Nat → Finset Nat
  | [], out => out
  | c :: rest, out => filterExcl dict cnt rest (out ∩ exactlySet dict c (cnt c))

/-- Embedding of `WordleEngine::FilterWords` (src/WordleEngine.hpp 463-494). -/
def filterWords (dict : List Word) (ids : Finset Nat) (pattern : List (Option Nat))
    (incl excl : List Nat) : Finset Nat :=
  filterExcl dict (fun c => incl.count c) excl
    (filterIncl dict incl (fun _ => 0) (filterPattern dict ids pattern))

/-- One entry of the driver's clue stack (`WordleDriver::Clue`,
src/Wordle-CommandLine.cpp 24-33): a proper guess/result clue, or a filter. -/
inductive ClueEntry where
  | clue (word : Word) (result : List PositionResult)
  | filt (pattern : List (Option Nat)) (incl excl : List Nat)
deriving DecidableEq

/-- Applying one stack entry the way the driver applies it when it is first
entered: `CommandClue` calls `AddClue` (src/Wordle-CommandLine.cpp 216), and
`CommandFilter` calls `FilterCurWords` then `SetOptions`
(src/Wordle-CommandLine.cpp 277-278). -/
def applyEntry (dict : List Word) (L : Nat) (cur : Finset Nat) :
    ClueEntry → Finset Nat
  | .clue w r => addClue dict L cur w r
  | .filt p incl excl => filterWords dict cur p incl excl

/-- Replaying one stack entry the way `WordleDriver::CommandPop` does
(src/Wordle-CommandLine.cpp 370-391): clue entries are re-applied through
`AddClue`, but for filter entries the recomputed `FilterCurWords` set is
discarded — its return value is never passed to `SetOptions` — leaving the
candidate set unchanged. -/
def replayEntryPop (dict : List Word) (L : Nat) (cur : Finset Nat) :
    ClueEntry → Finset Nat
  | .clue w r => addClue dict L cur w r
  | .filt _ _ _ => cur

/-- The candidate set after applying a whole stack from the full dictionary. -/
def applyEntries (dict : List Word) (L : Nat) (stack : List ClueEntry) : Finset Nat :=
  stack.foldl (applyEntry dict L) (Finset.range dict.length)

/-- Embedding of `WordleDriver::CommandPop` (src/Wordle-CommandLine.cpp
370-391): drop the newest entry, reset the options to the full dictionary
(`ResetOptions`), and replay the remaining entries in order. -/
def commandPop (dict : List Word) (L : Nat) (stack : List ClueEntry) :
    List ClueEntry × Finset Nat :=
  (stack.dropLast,
    stack.dropLast.foldl (replayEntryPop dict L) (Finset.range dict.length))

/-- The bucket index that `MultiGroup::Add` assigns to word `i` for one guess:
the index of the (unique) group of the guess's partition containing `i`
(src/WordleEngine.hpp 213-221, the `group_id` scan over `starts`). -/
def groupIdOf (dict : List Word) (L : Nat) (guess : Word) (i : Nat) : Nat :=
  (buildFull dict L guess).findIdx fun s => decide (i ∈ s)

/-- The composite key accumulated in `combo_ids[i]` by successive
`MultiGroup::Add` calls (src/WordleEngine.hpp 219-220): shift left by 16 bits
and add the group id, in 64-bit `size_t` arithmetic. -/
def comboKey (dict : List Word) (L : Nat) (guesses : List Word) (i : Nat) : Nat :=
  guesses.foldl
    (fun acc g => (acc * 2 ^ 16 % 2 ^ 64 + groupIdOf dict L g i) % 2 ^ 64) 0

/-- Two words fall in the same joint bucket of `MultiGroup::CalcStats` exactly
when their accumulated combo keys are equal (the sort-and-scan of
src/WordleEngine.hpp 224-254 groups equal keys). -/
abbrev sameJointBucket (dict : List Word) (L : Nat) (guesses : List Word)
    (i j : Nat) : Prop :=
  comboKey dict L guesses i = comboKey dict L guesses j

/-- The same fold on a plain digit list, with the 64-bit wraps of the C++. -/
def shiftFold (ds : List Nat) : Nat :=
  ds.foldl (fun acc d => (acc * 2 ^ 16 % 2 ^ 64 + d) % 2 ^ 64) 0

/-- The ideal (wrap-free) base-`2^16` value of a digit list. -/
def valFold (ds : List Nat) : Nat :=
  ds.foldl (fun acc d => acc * 2 ^ 16 + d) 0

/-- Embedding of `GroupStats` (src/WordleEngine.hpp 106-111), with the exact
rational value of the two ratio fields and the real value of the entropy. -/
structure GroupStats where
  max_options : Nat
  ave_options : ℚ
  entropy : ℝ
  solve_p : ℚ

/-- One iteration of the loop of `IDGroups::CalcStats(filter_set)`
(src/WordleEngine.hpp 180-189): intersect the group with the filter set and
update solve count, max, sum of squares and entropy. -/
noncomputable def calcStatsStep (F : Finset Nat) (a : Nat × Nat × Nat × ℝ)
    (g : Finset Nat) : Nat × Nat × Nat × ℝ :=
  let sz := (g ∩ F).card
  (max a.1 sz,
   a.2.1 + sz * sz,
   a.2.2.1 + (if sz = 1 then 1 else 0),
   a.2.2.2 - (if 0 < sz then
     (sz : ℝ) / (F.card : ℝ) * Real.logb 2 ((sz : ℝ) / (F.card : ℝ)) else 0))

/-- Embedding of `IDGroups::CalcStats(filter_set)` (src/WordleEngine.hpp
174-193): fold the step over all groups, then divide the accumulated totals by
the filter-set size. -/
noncomputable def calcStats (groups : List (Finset Nat)) (F : Finset Nat) :
    GroupStats :=
  let acc := groups.foldl (calcStatsStep F) (0, 0, 0, 0)
  { max_options := acc.1
    ave_options := (acc.2.1 : ℚ) / (F.card : ℚ)
    entropy := acc.2.2.2
    solve_p := (acc.2.2.1 : ℚ) / (F.card : ℚ) }

/-! ## Theorems -/

/-! ### Basic facts about encoding and decoding -/

theorem toNat_ofDigit {d : Nat} (h : d < 3) : (PositionResult.ofDigit d).toNat = d := by
  interval_cases d <;> rfl

theorem lookupDigits_length (L code : Nat) : (lookupDigits L code).length = L := by
  induction L generalizing code with
  | zero => rfl
  | succ L ih => simp [lookupDigits, ih]

theorem calcIDFrom_append (xs : List PositionResult) (x : PositionResult) :
    ∀ base acc, calcIDFrom (xs ++ [x]) base acc =
      calcIDFrom xs base acc + x.toNat * base * 3 ^ xs.length := by
  induction xs with
  | nil => intro base acc; simp [calcIDFrom]
  | cons r rest ih =>
    intro base acc
    simp only [List.cons_append, calcIDFrom, List.length_cons, List.append_eq]
    rw [ih]
    ring

theorem calcID_append (xs : List PositionResult) (x : PositionResult) :
    calcID (xs ++ [x]) = calcID xs + x.toNat * 3 ^ xs.length := by
  simpa [calcID] using calcIDFrom_append xs x 1 0

theorem calcID_lookupDigits (L : Nat) : ∀ code < 3 ^ L, calcID (lookupDigits L code) = code := by
  induction L with
  | zero =>
    intro code h
    have h1 : code = 0 := by simp at h; omega
    subst h1
    rfl
  | succ L ih =>
    intro code h
    have hpow : 0 < 3 ^ L := Nat.pos_pow_of_pos L (by norm_num)
    have hcur : code / 3 ^ L < 3 := Nat.div_lt_of_lt_mul (by rw [← pow_succ]; exact h)
    have hmod := Nat.mod_add_div' code (3 ^ L)
    have hrem : code - code / 3 ^ L * 3 ^ L = code % 3 ^ L := by omega
    have hremlt : code % 3 ^ L < 3 ^ L := Nat.mod_lt _ hpow
    simp only [lookupDigits, calcID_append, lookupDigits_length, hrem]
    rw [ih _ hremlt, toNat_ofDigit hcur]
    omega

theorem supply_cons (c a : Nat) (u : Bool) (rest : MatchState) :
    supply c ((a, u) :: rest) =
      supply c rest + (if a = c ∧ u = false then 1 else 0) := by
  have hiff : ((a == c && !u) = true) ↔ (a = c ∧ u = false) := by
    cases u <;> simp
  simp [supply, List.countP_cons, hiff]

theorem consume_eq_none (g : Nat) (st : MatchState) :
    consume g st = none ↔ supply g st = 0 := by
  induction st with
  | nil => simp [consume, supply]
  | cons p rest ih =>
    obtain ⟨a, u⟩ := p
    rw [supply_cons]
    by_cases h : (!u && a == g) = true
    · have hcond : a = g ∧ u = false := by
        obtain ⟨h1, h2⟩ := Bool.and_eq_true_iff.mp h
        exact ⟨by simpa using h2, by simpa using h1⟩
      rw [consume, if_pos h, if_pos hcond]
      simp
    · have hcond : ¬(a = g ∧ u = false) := by
        rintro ⟨h1, h2⟩
        exact h (by simp [h1, h2])
      rw [consume, if_neg h, if_neg hcond]
      simp only [Nat.add_zero]
      rw [← ih]
      cases hrest : consume g rest <;> simp

theorem consume_some_supply_self {g : Nat} {st st2 : MatchState}
    (h : consume g st = some st2) : supply g st = supply g st2 + 1 := by
  induction st generalizing st2 with
  | nil => simp [consume] at h
  | cons p rest ih =>
    obtain ⟨a, u⟩ := p
    by_cases hcond : (!u && a == g) = true
    · rw [consume, if_pos hcond] at h
      obtain ⟨h1, h2⟩ := Bool.and_eq_true_iff.mp hcond
      have ha : a = g := by simpa using h2
      have hu : u = false := by simpa using h1
      cases h
      rw [supply_cons, supply_cons]
      simp [ha, hu]
    · rw [consume, if_neg hcond] at h
      cases hrest : consume g rest with
      | none => rw [hrest] at h; simp at h
      | some rest2 =>
        rw [hrest] at h
        simp only [Option.map_some'] at h
        cases h
        rw [supply_cons, supply_cons, ih hrest]
        omega

theorem consume_some_supply_other {g c : Nat} (hcg : c ≠ g) {st st2 : MatchState}
    (h : consume g st = some st2) : supply c st2 = supply c st := by
  induction st generalizing st2 with
  | nil => simp [consume] at h
  | cons p rest ih =>
    obtain ⟨a, u⟩ := p
    by_cases hcond : (!u && a == g) = true
    · rw [consume, if_pos hcond] at h
      obtain ⟨h1, h2⟩ := Bool.and_eq_true_iff.mp hcond
      have ha : a = g := by simpa using h2
      have hu : u = false := by simpa using h1
      cases h
      rw [supply_cons, supply_cons]
      have hne1 : ¬(a = c ∧ (true : Bool) = false) := by rintro ⟨_, h4⟩; cases h4
      have hne2 : ¬(a = c ∧ u = false) := by
        rintro ⟨h3, _⟩
        exact hcg (h3 ▸ ha)
      rw [if_neg hne1, if_neg hne2]
    · rw [consume, if_neg hcond] at h
      cases hrest : consume g rest with
      | none => rw [hrest] at h; simp at h
      | some rest2 =>
        rw [hrest] at h
        simp only [Option.map_some'] at h
        cases h
        rw [supply_cons, supply_cons, ih hrest]

theorem eCount_cons (c : Nat) (x : TaggedPos) (rem : List TaggedPos) :
    eCount c (x :: rem) =
      eCount c rem + (if x.1.1 = c ∧ x.2 = PositionResult.ELSEWHERE then 1 else 0) := by
  have hiff : ((x.1.1 == c && x.2 == PositionResult.ELSEWHERE) = true) ↔
      (x.1.1 = c ∧ x.2 = PositionResult.ELSEWHERE) := by simp
  simp [eCount, List.countP_cons, hiff]

theorem failIn_cons (c : Nat) (x : TaggedPos) (rem : List TaggedPos) :
    failIn c (x :: rem) ↔ (x.1.1 = c ∧ x.2 = PositionResult.NOWHERE) ∨ failIn c rem := by
  constructor
  · rintro ⟨y, hy, h1, h2⟩
    rcases List.mem_cons.mp hy with h | h
    · subst h; exact Or.inl ⟨h1, h2⟩
    · exact Or.inr ⟨y, h, h1, h2⟩
  · rintro (⟨h1, h2⟩ | ⟨y, hy, h1, h2⟩)
    · exact ⟨x, List.mem_cons_self x rem, h1, h2⟩
    · exact ⟨y, List.mem_cons_of_mem x hy, h1, h2⟩

theorem pass2_length (pairs : List (Nat × Nat)) (st : MatchState) :
    (pass2 pairs st).length = pairs.length := by
  induction pairs generalizing st with
  | nil => rfl
  | cons p rest ih =>
    obtain ⟨g, a⟩ := p
    by_cases h : g = a
    · simp [pass2, h, ih]
    · rw [pass2, if_neg h]
      cases hc : consume g st <;> simp [ih]

theorem pass2_no_none (pairs : List (Nat × Nat)) (st : MatchState) :
    ∀ r ∈ pass2 pairs st, r ≠ PositionResult.NONE := by
  induction pairs generalizing st with
  | nil => simp [pass2]
  | cons p rest ih =>
    obtain ⟨g, a⟩ := p
    by_cases h : g = a
    · rw [pass2, if_pos h]
      intro r hr
      rcases List.mem_cons.mp hr with h1 | h1
      · subst h1; simp
      · exact ih st r h1
    · rw [pass2, if_neg h]
      cases hc : consume g st with
      | some st2 =>
        intro r hr
        rcases List.mem_cons.mp hr with h1 | h1
        · subst h1; simp
        · exact ih st2 r h1
      | none =>
        intro r hr
        rcases List.mem_cons.mp hr with h1 | h1
        · subst h1; simp
        · exact ih st r h1

theorem pass2_here_iff (pairs : List (Nat × Nat)) (st : MatchState) :
    ∀ x ∈ pairs.zip (pass2 pairs st), x.2 = PositionResult.HERE ↔ x.1.1 = x.1.2 := by
  induction pairs generalizing st with
  | nil => simp [pass2]
  | cons p rest ih =>
    obtain ⟨g, a⟩ := p
    by_cases h : g = a
    · rw [pass2, if_pos h, List.zip_cons_cons]
      intro x hx
      rcases List.mem_cons.mp hx with h1 | h1
      · subst h1; simpa using h
      · exact ih st x h1
    · rw [pass2, if_neg h]
      cases hc : consume g st with
      | some st2 =>
        rw [List.zip_cons_cons]
        intro x hx
        rcases List.mem_cons.mp hx with h1 | h1
        · subst h1; simpa using h
        · exact ih st2 x h1
      | none =>
        rw [List.zip_cons_cons]
        intro x hx
        rcases List.mem_cons.mp hx with h1 | h1
        · subst h1; simpa using h
        · exact ih st x h1

theorem pass2_counts (pairs : List (Nat × Nat)) (st : MatchState) (c : Nat) :
    eCount c (pairs.zip (pass2 pairs st)) ≤ supply c st ∧
      (failIn c (pairs.zip (pass2 pairs st)) →
        supply c st ≤ eCount c (pairs.zip (pass2 pairs st))) := by
  induction pairs generalizing st with
  | nil => simp [pass2, eCount, failIn]
  | cons p rest ih =>
    obtain ⟨g, a⟩ := p
    by_cases h : g = a
    · rw [pass2, if_pos h, List.zip_cons_cons]
      rw [eCount_cons]
      have hred : ¬((((g, a), PositionResult.HERE) : TaggedPos).1.1 = c ∧
          (((g, a), PositionResult.HERE) : TaggedPos).2 = PositionResult.ELSEWHERE) := by
        simp
      rw [if_neg hred]
      refine ⟨by simpa using (ih st).1, ?_⟩
      intro hfail
      rcases (failIn_cons _ _ _).mp hfail with ⟨_, habs⟩ | hfail2
      · exact absurd habs (by simp)
      · simpa using (ih st).2 hfail2
    · rw [pass2, if_neg h]
      cases hc : consume g st with
      | some st2 =>
        rw [List.zip_cons_cons, eCount_cons]
        by_cases hgc : g = c
        · subst hgc
          have hred : (((g, a), PositionResult.ELSEWHERE) : TaggedPos).1.1 = g ∧
              (((g, a), PositionResult.ELSEWHERE) : TaggedPos).2 = PositionResult.ELSEWHERE :=
            ⟨rfl, rfl⟩
          rw [if_pos hred]
          have hsup := consume_some_supply_self hc
          refine ⟨?_, ?_⟩
          · have := (ih st2).1
            omega
          · intro hfail
            rcases (failIn_cons _ _ _).mp hfail with ⟨_, habs⟩ | hfail2
            · exact absurd habs (by simp)
            · have := (ih st2).2 hfail2
              omega
        · have hred : ¬((((g, a), PositionResult.ELSEWHERE) : TaggedPos).1.1 = c ∧
              (((g, a), PositionResult.ELSEWHERE) : TaggedPos).2 = PositionResult.ELSEWHERE) := by
            rintro ⟨h1, _⟩; exact hgc h1
          rw [if_neg hred]
          have hsup := consume_some_supply_other (fun heq => hgc heq.symm) hc
          refine ⟨?_, ?_⟩
          · have := (ih st2).1
            omega
          · intro hfail
            rcases (failIn_cons _ _ _).mp hfail with ⟨h1, _⟩ | hfail2
            · exact absurd h1 hgc
            · have := (ih st2).2 hfail2
              omega
      | none =>
        rw [List.zip_cons_cons, eCount_cons]
        have hred : ¬((((g, a), PositionResult.NOWHERE) : TaggedPos).1.1 = c ∧
            (((g, a), PositionResult.NOWHERE) : TaggedPos).2 = PositionResult.ELSEWHERE) := by
          simp
        rw [if_neg hred]
        refine ⟨by simpa using (ih st).1, ?_⟩
        intro hfail
        rcases (failIn_cons _ _ _).mp hfail with ⟨hgc, _⟩ | hfail2
        · have hgc' : g = c := hgc
          subst hgc'
          have hzero : supply g st = 0 := (consume_eq_none g st).mp hc
          omega
        · have := (ih st).2 hfail2
          simpa using this

theorem pass2_goodOrder (pairs : List (Nat × Nat)) (st : MatchState) :
    goodOrderT (pairs.zip (pass2 pairs st)) := by
  induction pairs generalizing st with
  | nil => simp [pass2, goodOrderT]
  | cons p rest ih =>
    obtain ⟨g, a⟩ := p
    by_cases h : g = a
    · rw [pass2, if_pos h, List.zip_cons_cons]
      exact ⟨fun habs => absurd habs (by simp), ih st⟩
    · rw [pass2, if_neg h]
      cases hc : consume g st with
      | some st2 =>
        rw [List.zip_cons_cons]
        exact ⟨fun habs => absurd habs (by simp), ih st2⟩
      | none =>
        rw [List.zip_cons_cons]
        refine ⟨?_, ih st⟩
        intro _ y hy ⟨h1, h2⟩
        have hzero : supply g st = 0 := (consume_eq_none g st).mp hc
        have hcnt := (pass2_counts rest st g).1
        have hzeroE : eCount g (rest.zip (pass2 rest st)) = 0 := by omega
        have : ¬((fun x => x.1.1 == g && x.2 == PositionResult.ELSEWHERE) y = true) :=
          List.countP_eq_zero.mp hzeroE y hy
        exact this (by simp [h1, h2])

theorem goodOrderT_iff_pairwise (l : List TaggedPos) :
    goodOrderT l ↔ l.Pairwise (fun x y =>
      x.2 = PositionResult.NOWHERE → ¬(y.1.1 = x.1.1 ∧ y.2 = PositionResult.ELSEWHERE)) := by
  induction l with
  | nil => simp [goodOrderT]
  | cons x rest ih =>
    rw [List.pairwise_cons]
    simp only [goodOrderT]
    constructor
    · rintro ⟨h1, h2⟩
      exact ⟨fun y hy hN => h1 hN y hy, ih.mp h2⟩
    · rintro ⟨h1, h2⟩
      exact ⟨fun hN y hy => h1 y hy hN, ih.mpr h2⟩

theorem pass2_eq_of_invar :
    ∀ (rem : List TaggedPos) (st : MatchState),
      (∀ x ∈ rem, x.2 ≠ PositionResult.NONE) →
      (∀ x ∈ rem, x.2 = PositionResult.HERE ↔ x.1.1 = x.1.2) →
      goodOrderT rem →
      (∀ c, eCount c rem ≤ supply c st) →
      (∀ c, failIn c rem → supply c st ≤ eCount c rem) →
      pass2 (rem.map Prod.fst) st = rem.map Prod.snd := by
  intro rem
  induction rem with
  | nil => intro st _ _ _ _ _; rfl
  | cons x rest ih =>
    intro st hnone hhere hgood hle hfail
    obtain ⟨⟨g, a⟩, r⟩ := x
    rw [List.map_cons, List.map_cons]
    cases r with
    | NONE => exact absurd rfl (hnone _ (List.mem_cons_self _ _))
    | HERE =>
      have hga : g = a := (hhere _ (List.mem_cons_self _ _)).mp rfl
      have hecons : ∀ c, eCount c ((((g, a), PositionResult.HERE) : TaggedPos) :: rest) =
          eCount c rest := by
        intro c
        rw [eCount_cons]
        simp
      rw [pass2, if_pos hga]
      congr 1
      apply ih st
      · exact fun y hy => hnone y (List.mem_cons_of_mem _ hy)
      · exact fun y hy => hhere y (List.mem_cons_of_mem _ hy)
      · exact hgood.2
      · intro c
        have := hle c
        rw [hecons c] at this
        exact this
      · intro c hf
        have := hfail c ((failIn_cons _ _ _).mpr (Or.inr hf))
        rw [hecons c] at this
        exact this
    | ELSEWHERE =>
      have hga : g ≠ a := by
        intro hga
        have := (hhere _ (List.mem_cons_self _ _)).mpr hga
        simp at this
      have hecons : eCount g ((((g, a), PositionResult.ELSEWHERE) : TaggedPos) :: rest) =
          eCount g rest + 1 := by
        rw [eCount_cons]
        simp
      have hsup1 : 1 ≤ supply g st := by
        have := hle g
        rw [hecons] at this
        omega
      have hnotnone : ¬(consume g st = none) := by
        rw [consume_eq_none]
        omega
      obtain ⟨st2, hst2⟩ := Option.ne_none_iff_exists'.mp hnotnone
      rw [pass2, if_neg hga, hst2]
      show PositionResult.ELSEWHERE :: pass2 (rest.map Prod.fst) st2 =
        PositionResult.ELSEWHERE :: rest.map Prod.snd
      congr 1
      have hsupself := consume_some_supply_self hst2
      apply ih st2
      · exact fun y hy => hnone y (List.mem_cons_of_mem _ hy)
      · exact fun y hy => hhere y (List.mem_cons_of_mem _ hy)
      · exact hgood.2
      · intro c
        by_cases hc : c = g
        · subst hc
          have := hle c
          rw [hecons] at this
          omega
        · have := hle c
          rw [eCount_cons, if_neg (by rintro ⟨h1, _⟩; exact hc h1.symm)] at this
          rw [consume_some_supply_other hc hst2]
          omega
      · intro c hf
        by_cases hc : c = g
        · subst hc
          have := hfail c ((failIn_cons _ _ _).mpr (Or.inr hf))
          rw [hecons] at this
          omega
        · have := hfail c ((failIn_cons _ _ _).mpr (Or.inr hf))
          rw [eCount_cons, if_neg (by rintro ⟨h1, _⟩; exact hc h1.symm)] at this
          rw [consume_some_supply_other hc hst2]
          omega
    | NOWHERE =>
      have hga : g ≠ a := by
        intro hga
        have := (hhere _ (List.mem_cons_self _ _)).mpr hga
        simp at this
      have hef : failIn g ((((g, a), PositionResult.NOWHERE) : TaggedPos) :: rest) :=
        ⟨_, List.mem_cons_self _ _, rfl, rfl⟩
      have heg0 : eCount g rest = 0 := by
        apply List.countP_eq_zero.mpr
        intro y hy
        have := hgood.1 rfl y hy
        simp only [Bool.and_eq_true, beq_iff_eq]
        rintro ⟨h1, h2⟩
        exact this ⟨h1, h2⟩
      have hzero : supply g st = 0 := by
        have := hfail g hef
        rw [eCount_cons, if_neg (by rintro ⟨_, habs⟩; simp at habs)] at this
        omega
      have hcn : consume g st = none := (consume_eq_none g st).mpr hzero
      rw [pass2, if_neg hga, hcn]
      show PositionResult.NOWHERE :: pass2 (rest.map Prod.fst) st =
        PositionResult.NOWHERE :: rest.map Prod.snd
      congr 1
      apply ih st
      · exact fun y hy => hnone y (List.mem_cons_of_mem _ hy)
      · exact fun y hy => hhere y (List.mem_cons_of_mem _ hy)
      · exact hgood.2
      · intro c
        have := hle c
        rw [eCount_cons, if_neg (by rintro ⟨_, habs⟩; simp at habs)] at this
        omega
      · intro c hf
        have := hfail c ((failIn_cons _ _ _).mpr (Or.inr hf))
        rw [eCount_cons, if_neg (by rintro ⟨_, habs⟩; simp at habs)] at this
        omega

theorem countP_bool_split (l : List α) (p q : α → Bool) :
    l.countP p = l.countP (fun a => p a && q a) + l.countP (fun a => p a && !q a) := by
  induction l with
  | nil => simp
  | cons x rest ih =>
    simp only [List.countP_cons]
    cases hp : p x <;> cases hq : q x <;> simp [hp, hq] <;> omega

theorem zip_zip_map_fst (g w : Word) (r : List PositionResult) (hlen : g.length = w.length) :
    ((g.zip w).zip r).map (fun x => (x.1.1, x.2)) = g.zip r := by
  induction g generalizing w r with
  | nil => simp
  | cons a g ih =>
    cases w with
    | nil => simp at hlen
    | cons b w =>
      cases r with
      | nil => simp
      | cons c r =>
        simp only [List.zip_cons_cons, List.map_cons]
        rw [ih w r (by simpa using hlen)]

theorem obsCount_eq_counts (guess w : Word) (result : List PositionResult)
    (hlen : guess.length = w.length) :
    obsCount guess result c =
      hCount c ((guess.zip w).zip result) + eCount c ((guess.zip w).zip result) := by
  unfold obsCount
  rw [← zip_zip_map_fst guess w result hlen, List.countP_map]
  rw [countP_bool_split _ _ (fun x : TaggedPos => x.2 == PositionResult.HERE)]
  congr 1
  · apply List.countP_congr
    intro x _
    cases hx : x.2 <;> cases hc : (x.1.1 == c) <;> simp [hx, hc, Function.comp]
  · apply List.countP_congr
    intro x _
    cases hx : x.2 <;> cases hc : (x.1.1 == c) <;> simp [hx, hc, Function.comp]

theorem letterFail_iff_failIn (guess w : Word) (result : List PositionResult)
    (hlen : guess.length = w.length) :
    letterFail guess result c = true ↔ failIn c ((guess.zip w).zip result) := by
  unfold letterFail failIn
  rw [← zip_zip_map_fst guess w result hlen]
  rw [List.any_eq_true]
  constructor
  · rintro ⟨p, hp, hcond⟩
    obtain ⟨x, hx, hfx⟩ := List.mem_map.mp hp
    refine ⟨x, hx, ?_⟩
    rw [← hfx] at hcond
    simpa using hcond
  · rintro ⟨x, hx, h1, h2⟩
    exact ⟨_, List.mem_map_of_mem _ hx, by simpa using ⟨h1, h2⟩⟩

theorem supply_initState (guess w : Word) (c : Nat) :
    supply c (initState guess w) +
        (guess.zip w).countP (fun p => p.2 == c && p.1 == p.2) =
      (guess.zip w).countP (fun p => p.2 == c) := by
  have h1 : supply c (initState guess w) =
      (guess.zip w).countP (fun p => p.2 == c && !(p.1 == p.2)) := by
    unfold supply initState
    rw [List.countP_map]
    rfl
  rw [h1, countP_bool_split (guess.zip w) (fun p => p.2 == c) (fun p => p.1 == p.2)]
  omega

theorem countP_zip_snd (guess w : Word) (c : Nat) (hlen : guess.length = w.length) :
    (guess.zip w).countP (fun p => p.2 == c) = w.count c := by
  have h1 : (guess.zip w).map Prod.snd = w := List.map_snd_zip _ _ (le_of_eq hlen.symm)
  conv_rhs => rw [← h1]
  rw [List.count, List.countP_map]
  rfl

theorem hCount_eq_matched (guess w : Word) (result : List PositionResult) (c : Nat)
    (hA : ∀ x ∈ (guess.zip w).zip result, x.2 = PositionResult.HERE ↔ x.1.1 = x.1.2)
    (hlen2 : (guess.zip w).length ≤ result.length) :
    hCount c ((guess.zip w).zip result) =
      (guess.zip w).countP (fun p => p.2 == c && p.1 == p.2) := by
  unfold hCount
  have h2 : (guess.zip w).countP (fun p => p.2 == c && p.1 == p.2) =
      ((guess.zip w).zip result).countP ((fun p : Nat × Nat => p.2 == c && p.1 == p.2) ∘ Prod.fst) := by
    rw [← List.countP_map, List.map_fst_zip _ _ hlen2]
  rw [h2]
  apply List.countP_congr
  intro x hx
  have hAx := hA x hx
  by_cases hH : x.2 = PositionResult.HERE
  · have heq : x.1.1 = x.1.2 := hAx.mp hH
    simp [Function.comp, hH, heq]
  · have hne : ¬(x.1.1 = x.1.2) := fun h => hH (hAx.mpr h)
    have hx2 : (x.2 == PositionResult.HERE) = false := by
      simpa using hH
    simp [Function.comp, hx2, hne]

theorem matchConds_compare (guess w : Word) (hlen : guess.length = w.length) :
    matchConds guess w (compare guess w) := by
  have hA := pass2_here_iff (guess.zip w) (initState guess w)
  refine ⟨hA, ?_, ?_⟩
  · intro c hfailtrue
    have hfail : failIn c ((guess.zip w).zip (compare guess w)) :=
      (letterFail_iff_failIn guess w (compare guess w) hlen).mp hfailtrue
    have hcnt := pass2_counts (guess.zip w) (initState guess w) c
    have hobs := obsCount_eq_counts guess w (compare guess w) hlen (c := c)
    have hsup := supply_initState guess w c
    have hwc := countP_zip_snd guess w c hlen
    have hlen2 : (guess.zip w).length ≤ (compare guess w).length := by
      rw [compare, pass2_length]
    have hmatch := hCount_eq_matched guess w (compare guess w) c hA hlen2
    have h1 : supply c (initState guess w) = eCount c ((guess.zip w).zip (compare guess w)) :=
      le_antisymm ((pass2_counts _ _ c).2 hfail) (pass2_counts _ _ c).1
    omega
  · intro c _ hpos
    have hcnt : eCount c ((guess.zip w).zip (compare guess w)) ≤ supply c (initState guess w) :=
      (pass2_counts (guess.zip w) (initState guess w) c).1
    have hobs := obsCount_eq_counts guess w (compare guess w) hlen (c := c)
    have hsup := supply_initState guess w c
    have hwc := countP_zip_snd guess w c hlen
    have hlen2 : (guess.zip w).length ≤ (compare guess w).length := by
      rw [compare, pass2_length]
    have hmatch := hCount_eq_matched guess w (compare guess w) c hA hlen2
    omega

theorem compare_eq_of_matchConds (guess w : Word) (result : List PositionResult)
    (hlen : guess.length = w.length) (hrlen : result.length = guess.length)
    (hnone : ∀ r ∈ result, r ≠ PositionResult.NONE)
    (hgood : goodOrderT ((guess.zip w).zip result))
    (hconds : matchConds guess w result) :
    compare guess w = result := by
  have hlenzip : (guess.zip w).length = guess.length := by
    rw [List.length_zip, hlen, min_self]
  have hlen2 : (guess.zip w).length ≤ result.length := by omega
  have hfst : ((guess.zip w).zip result).map Prod.fst = guess.zip w :=
    List.map_fst_zip _ _ hlen2
  have hsnd : ((guess.zip w).zip result).map Prod.snd = result :=
    List.map_snd_zip _ _ (by omega)
  have key := pass2_eq_of_invar ((guess.zip w).zip result) (initState guess w)
    (fun x hx => by
      apply hnone
      rw [← hsnd]
      exact List.mem_map_of_mem _ hx)
    hconds.1 hgood
    (fun c => by
      have hobs := obsCount_eq_counts guess w result hlen (c := c)
      have hsup := supply_initState guess w c
      have hwc := countP_zip_snd guess w c hlen
      have hmatch := hCount_eq_matched guess w result c hconds.1 hlen2
      cases hLF : letterFail guess result c with
      | true =>
        have := hconds.2.1 c hLF
        omega
      | false =>
        by_cases hobs0 : 0 < obsCount guess result c
        · have := hconds.2.2 c hLF hobs0
          omega
        · omega)
    (fun c hf => by
      have hLF : letterFail guess result c = true :=
        (letterFail_iff_failIn guess w result hlen).mpr hf
      have := hconds.2.1 c hLF
      have hobs := obsCount_eq_counts guess w result hlen (c := c)
      have hsup := supply_initState guess w c
      have hwc := countP_zip_snd guess w c hlen
      have hmatch := hCount_eq_matched guess w result c hconds.1 hlen2
      omega)
  rw [hfst, hsnd] at key
  exact key

theorem compare_eq_iff_matchConds (guess w : Word) (result : List PositionResult)
    (hlen : guess.length = w.length) (hrlen : result.length = guess.length)
    (hnone : ∀ r ∈ result, r ≠ PositionResult.NONE)
    (hgood : goodOrderT ((guess.zip w).zip result)) :
    compare guess w = result ↔ matchConds guess w result := by
  constructor
  · intro h
    rw [← h]
    exact matchConds_compare guess w hlen
  · exact compare_eq_of_matchConds guess w result hlen hrlen hnone hgood

theorem isValid_iff (rs : List PositionResult) (word : Word) :
    isValid rs word = true ↔
      (word.length = rs.length ∧
        ∀ pos pos2, pos < pos2 → pos2 < rs.length →
          ¬(rs.getD pos .NONE = PositionResult.NOWHERE ∧
            rs.getD pos2 .NONE = PositionResult.ELSEWHERE ∧
            word.getD pos 26 = word.getD pos2 26)) := by
  unfold isValid
  rw [Bool.and_eq_true]
  constructor
  · rintro ⟨h1, h2⟩
    refine ⟨by simpa using h1, ?_⟩
    rintro pos pos2 hlt h2len ⟨hN, hE, hW⟩
    rw [List.all_eq_true] at h2
    have t2 := h2 _ (List.mem_range.mpr (show pos < rs.length by omega))
    rw [List.all_eq_true] at t2
    have t3 := t2 _ (List.mem_range.mpr h2len)
    rw [Bool.not_eq_true'] at t3
    have htrue : (decide (pos < pos2) && (rs.getD pos .NONE == PositionResult.NOWHERE)
        && (rs.getD pos2 .NONE == PositionResult.ELSEWHERE)
        && (word.getD pos 26 == word.getD pos2 26)) = true := by
      simp only [Bool.and_eq_true, decide_eq_true_eq, beq_iff_eq]
      exact ⟨⟨⟨hlt, hN⟩, hE⟩, hW⟩
    rw [htrue] at t3
    exact Bool.noConfusion t3
  · rintro ⟨h1, h2⟩
    refine ⟨by simpa using h1, ?_⟩
    rw [List.all_eq_true]
    intro pos hpos
    rw [List.all_eq_true]
    intro pos2 hpos2
    rw [List.mem_range] at hpos hpos2
    rw [Bool.not_eq_true']
    by_cases hlt : pos < pos2
    · by_cases hN : rs.getD pos .NONE = PositionResult.NOWHERE
      · by_cases hE : rs.getD pos2 .NONE = PositionResult.ELSEWHERE
        · have hW : ¬(word.getD pos 26 = word.getD pos2 26) :=
            fun hw => h2 pos pos2 hlt hpos2 ⟨hN, hE, hw⟩
          have hb : (word.getD pos 26 == word.getD pos2 26) = false := by
            simpa using hW
          rw [hb, Bool.and_false]
        · have hb : (rs.getD pos2 .NONE == PositionResult.ELSEWHERE) = false := by
            simpa using hE
          rw [hb, Bool.and_false, Bool.false_and]
      · have hb : (rs.getD pos .NONE == PositionResult.NOWHERE) = false := by
          simpa using hN
        rw [hb, Bool.and_false, Bool.false_and, Bool.false_and]
    · have hb : decide (pos < pos2) = false := by simpa using hlt
      rw [hb, Bool.false_and, Bool.false_and, Bool.false_and]

theorem get_zip_zip (g w : Word) (r : List PositionResult)
    (k : Nat) (hk : k < ((g.zip w).zip r).length) :
    ((g.zip w).zip r).get ⟨k, hk⟩ =
      ((g.getD k 26, w.getD k 26), r.getD k PositionResult.NONE) := by
  have hk0 := hk
  simp only [List.length_zip, lt_min_iff] at hk0
  have hk1 : k < g.length := hk0.1.1
  have hk2 : k < w.length := hk0.1.2
  have hk3 : k < r.length := hk0.2
  rw [List.get_eq_getElem, List.getElem_zip, List.getElem_zip]
  rw [List.getD_eq_getElem _ _ hk1, List.getD_eq_getElem _ _ hk2, List.getD_eq_getElem _ _ hk3]

theorem goodOrderT_of_isValid (guess w : Word) (result : List PositionResult)
    (hlen : guess.length = w.length) (hrlen : result.length = guess.length)
    (hvalid : isValid result guess = true) :
    goodOrderT ((guess.zip w).zip result) := by
  rw [goodOrderT_iff_pairwise, List.pairwise_iff_get]
  intro i j hij
  obtain ⟨hg1, h2⟩ := (isValid_iff result guess).mp hvalid
  rw [get_zip_zip, get_zip_zip]
  intro hN
  rintro ⟨hEq, hE⟩
  have hjlen : (j : Nat) < result.length := by
    have := j.isLt
    simp only [List.length_zip, lt_min_iff] at this
    exact this.2
  exact h2 i j hij hjlen ⟨hN, hE, hEq.symm⟩

theorem isValid_compare (guess w : Word) (hlen : guess.length = w.length) :
    isValid (compare guess w) guess = true := by
  rw [isValid_iff]
  have hclen : (compare guess w).length = guess.length := by
    rw [compare, pass2_length, List.length_zip, hlen, min_self]
  refine ⟨by omega, ?_⟩
  rintro pos pos2 hlt h2len ⟨hN, hE, hW⟩
  have hgo : goodOrderT ((guess.zip w).zip (compare guess w)) :=
    pass2_goodOrder (guess.zip w) (initState guess w)
  rw [goodOrderT_iff_pairwise, List.pairwise_iff_get] at hgo
  have hremlen : ((guess.zip w).zip (compare guess w)).length = guess.length := by
    simp only [List.length_zip, hlen, min_self]
    rw [hclen]
    simp [hlen]
  have hp2 : pos2 < guess.length := by omega
  have hp1 : pos < guess.length := by omega
  have hgij := hgo ⟨pos, by omega⟩ ⟨pos2, by omega⟩ (by simpa using hlt)
  rw [get_zip_zip, get_zip_zip] at hgij
  exact hgij hN ⟨hW.symm, hE⟩

theorem mem_foldl_inter (l : List (Finset Nat)) (init : Finset Nat) (x : Nat) :
    x ∈ l.foldl (· ∩ ·) init ↔ x ∈ init ∧ ∀ s ∈ l, x ∈ s := by
  induction l generalizing init with
  | nil => simp
  | cons s rest ih =>
    rw [List.foldl_cons, ih]
    simp only [Finset.mem_inter, List.mem_cons]
    constructor
    · rintro ⟨⟨h1, h2⟩, h3⟩
      refine ⟨h1, ?_⟩
      intro t ht
      rcases ht with h | h
      · subst h; exact h2
      · exact h3 t h
    · rintro ⟨h1, h2⟩
      exact ⟨⟨h1, h2 s (Or.inl rfl)⟩, fun t ht => h2 t (Or.inr ht)⟩

theorem mem_foldl_sdiff (l : List (Finset Nat)) (init : Finset Nat) (x : Nat) :
    x ∈ l.foldl (· \ ·) init ↔ x ∈ init ∧ ∀ s ∈ l, x ∉ s := by
  induction l generalizing init with
  | nil => simp
  | cons s rest ih =>
    rw [List.foldl_cons, ih]
    simp only [Finset.mem_sdiff, List.mem_cons]
    constructor
    · rintro ⟨⟨h1, h2⟩, h3⟩
      refine ⟨h1, ?_⟩
      intro t ht
      rcases ht with h | h
      · subst h; exact h2
      · exact h3 t h
    · rintro ⟨h1, h2⟩
      exact ⟨⟨h1, h2 s (Or.inl rfl)⟩, fun t ht => h2 t (Or.inr ht)⟩

theorem mem_hereSet (dict : List Word) (pos letter i : Nat) :
    i ∈ hereSet dict pos letter ↔
      i < dict.length ∧ (wordAt dict i).getD pos 26 = letter := by
  simp [hereSet, Finset.mem_filter, Finset.mem_range]

theorem mem_exactlySet (dict : List Word) (letter k i : Nat) :
    i ∈ exactlySet dict letter k ↔
      i < dict.length ∧ (wordAt dict i).count letter = k := by
  simp [exactlySet, Finset.mem_filter, Finset.mem_range]

theorem mem_atLeastSet (dict : List Word) (letter k i : Nat) :
    i ∈ atLeastSet dict letter k ↔
      i < dict.length ∧ 1 ≤ k ∧ k ≤ (wordAt dict i).count letter := by
  simp [atLeastSet, Finset.mem_filter, Finset.mem_range, and_assoc]

theorem forall_mem_intersectHereSets (dict : List Word) (guess : Word)
    (result : List PositionResult) (P : Finset Nat → Prop) :
    (∀ s ∈ intersectHereSets dict guess result, P s) ↔
      ∀ k < guess.length, result.getD k .NONE = PositionResult.HERE →
        P (hereSet dict k (guess.getD k 26)) := by
  constructor
  · intro h k hk hH
    exact h _ (List.mem_filterMap.mpr ⟨k, List.mem_range.mpr hk, by rw [if_pos hH]⟩)
  · intro h s hs
    obtain ⟨k, hk, hif⟩ := List.mem_filterMap.mp hs
    rw [List.mem_range] at hk
    by_cases hH : result.getD k .NONE = PositionResult.HERE
    · rw [if_pos hH] at hif
      cases hif
      exact h k hk hH
    · rw [if_neg hH] at hif
      cases hif

theorem forall_mem_excludeSets (dict : List Word) (guess : Word)
    (result : List PositionResult) (P : Finset Nat → Prop) :
    (∀ s ∈ excludeSets dict guess result, P s) ↔
      ∀ k < guess.length,
        (result.getD k .NONE = PositionResult.ELSEWHERE ∨
          result.getD k .NONE = PositionResult.NOWHERE) →
        P (hereSet dict k (guess.getD k 26)) := by
  constructor
  · intro h k hk hEN
    exact h _ (List.mem_filterMap.mpr ⟨k, List.mem_range.mpr hk, by rw [if_pos hEN]⟩)
  · intro h s hs
    obtain ⟨k, hk, hif⟩ := List.mem_filterMap.mp hs
    rw [List.mem_range] at hk
    by_cases hEN : result.getD k .NONE = PositionResult.ELSEWHERE ∨
        result.getD k .NONE = PositionResult.NOWHERE
    · rw [if_pos hEN] at hif
      cases hif
      exact h k hk hEN
    · rw [if_neg hEN] at hif
      cases hif

theorem forall_mem_letterSets (dict : List Word) (guess : Word)
    (result : List PositionResult) (P : Finset Nat → Prop) :
    (∀ s ∈ letterSets dict guess result, P s) ↔
      (∀ c < 26, letterFail guess result c = true →
          P (exactlySet dict c (obsCount guess result c))) ∧
      (∀ c < 26, letterFail guess result c = false →
          0 < obsCount guess result c →
          P (atLeastSet dict c (obsCount guess result c))) := by
  constructor
  · intro h
    constructor
    · intro c hc hLF
      refine h _ (List.mem_filterMap.mpr ⟨c, List.mem_range.mpr hc, ?_⟩)
      rw [if_pos (by rw [hLF])]
    · intro c hc hLF hobs
      refine h _ (List.mem_filterMap.mpr ⟨c, List.mem_range.mpr hc, ?_⟩)
      rw [if_neg (by rw [hLF]; exact Bool.noConfusion), if_pos hobs]
  · rintro ⟨h1, h2⟩ s hs
    obtain ⟨c, hc, hif⟩ := List.mem_filterMap.mp hs
    rw [List.mem_range] at hc
    cases hLF : letterFail guess result c with
    | true =>
      rw [if_pos (by rw [hLF])] at hif
      cases hif
      exact h1 c hc hLF
    | false =>
      rw [if_neg (by rw [hLF]; exact Bool.noConfusion)] at hif
      by_cases hobs : 0 < obsCount guess result c
      · rw [if_pos hobs] at hif
        cases hif
        exact h2 c hc hLF hobs
      · rw [if_neg hobs] at hif
        cases hif

theorem forall_mem_zip_zip (g w : Word) (r : List PositionResult) (P : TaggedPos → Prop) :
    (∀ x ∈ (g.zip w).zip r, P x) ↔
      (∀ k, k < ((g.zip w).zip r).length →
        P ((g.getD k 26, w.getD k 26), r.getD k PositionResult.NONE)) := by
  constructor
  · intro h k hk
    rw [← get_zip_zip g w r k hk]
    exact h _ (List.get_mem _ _ _)
  · intro h x hx
    obtain ⟨⟨k, hk⟩, hget⟩ := List.mem_iff_get.mp hx
    rw [get_zip_zip] at hget
    rw [← hget]
    exact h k hk

theorem letterFail_letter_mem {guess : Word} {result : List PositionResult} {c : Nat}
    (h : letterFail guess result c = true) : c ∈ guess := by
  unfold letterFail at h
  rw [List.any_eq_true] at h
  obtain ⟨⟨g, r⟩, hp, hcond⟩ := h
  obtain ⟨h1, _⟩ := Bool.and_eq_true_iff.mp hcond
  have hg : g = c := by simpa using h1
  subst hg
  exact (List.mem_zip hp).1

theorem obsCount_pos_letter_mem {guess : Word} {result : List PositionResult} {c : Nat}
    (h : 0 < obsCount guess result c) : c ∈ guess := by
  unfold obsCount at h
  rw [List.countP_pos] at h
  obtain ⟨⟨g, r⟩, hp, hcond⟩ := h
  obtain ⟨h1, _⟩ := Bool.and_eq_true_iff.mp hcond
  have hg : g = c := by simpa using h1
  subst hg
  exact (List.mem_zip hp).1

theorem sets_subset_range (dict : List Word) (guess : Word)
    (result : List PositionResult) :
    ∀ t ∈ intersectHereSets dict guess result ++ letterSets dict guess result,
      t ⊆ Finset.range dict.length := by
  intro t ht
  rcases List.mem_append.mp ht with h | h
  · obtain ⟨k, _, hif⟩ := List.mem_filterMap.mp h
    by_cases hH : result.getD k .NONE = PositionResult.HERE
    · rw [if_pos hH] at hif
      cases hif
      exact Finset.filter_subset _ _
    · rw [if_neg hH] at hif
      cases hif
  · obtain ⟨c, _, hif⟩ := List.mem_filterMap.mp h
    cases hLF : letterFail guess result c with
    | true =>
      rw [if_pos (by rw [hLF])] at hif
      cases hif
      exact Finset.filter_subset _ _
    | false =>
      rw [if_neg (by rw [hLF]; exact Bool.noConfusion)] at hif
      by_cases hobs : 0 < obsCount guess result c
      · rw [if_pos hobs] at hif
        cases hif
        exact Finset.filter_subset _ _
      · rw [if_neg hobs] at hif
        cases hif

theorem intersect_ne_nil (dict : List Word) (guess : Word)
    (result : List PositionResult)
    (hgpos : 0 < guess.length) (hglet : ∀ c ∈ guess, c < 26)
    (hrlen : result.length = guess.length)
    (hnone : ∀ r ∈ result, r ≠ PositionResult.NONE) :
    intersectHereSets dict guess result ++ letterSets dict guess result ≠ [] := by
  have hrpos : 0 < result.length := by omega
  have hr0mem : result.getD 0 .NONE ∈ result := by
    rw [List.getD_eq_getElem _ _ hrpos]
    exact List.getElem_mem hrpos
  have hg0mem : guess.getD 0 26 ∈ guess := by
    rw [List.getD_eq_getElem _ _ hgpos]
    exact List.getElem_mem hgpos
  have hc0 : guess.getD 0 26 < 26 := hglet _ hg0mem
  have hzlen : 0 < (guess.zip result).length := by
    rw [List.length_zip]
    omega
  have hzip0 : (guess.getD 0 26, result.getD 0 PositionResult.NONE) ∈ guess.zip result := by
    have h0 : (guess.zip result).get ⟨0, hzlen⟩ =
        (guess.getD 0 26, result.getD 0 PositionResult.NONE) := by
      rw [List.get_eq_getElem, List.getElem_zip]
      rw [List.getD_eq_getElem _ _ hgpos, List.getD_eq_getElem _ _ hrpos]
    rw [← h0]
    exact List.get_mem _ _ _
  cases hr0 : result.getD 0 PositionResult.NONE with
  | NONE => exact absurd hr0 (hnone _ hr0mem)
  | HERE =>
    apply List.ne_nil_of_mem (a := hereSet dict 0 (guess.getD 0 26))
    apply List.mem_append.mpr
    exact Or.inl (List.mem_filterMap.mpr ⟨0, List.mem_range.mpr hgpos, by rw [if_pos hr0]⟩)
  | ELSEWHERE =>
    have hobs : 0 < obsCount guess result (guess.getD 0 26) := by
      unfold obsCount
      rw [List.countP_pos]
      exact ⟨_, hzip0, by rw [hr0]; simp⟩
    cases hLF : letterFail guess result (guess.getD 0 26) with
    | true =>
      apply List.ne_nil_of_mem
        (a := exactlySet dict (guess.getD 0 26) (obsCount guess result (guess.getD 0 26)))
      apply List.mem_append.mpr
      refine Or.inr (List.mem_filterMap.mpr ⟨_, List.mem_range.mpr hc0, ?_⟩)
      rw [if_pos (by rw [hLF])]
    | false =>
      apply List.ne_nil_of_mem
        (a := atLeastSet dict (guess.getD 0 26) (obsCount guess result (guess.getD 0 26)))
      apply List.mem_append.mpr
      refine Or.inr (List.mem_filterMap.mpr ⟨_, List.mem_range.mpr hc0, ?_⟩)
      rw [if_neg (by rw [hLF]; exact Bool.noConfusion), if_pos hobs]
  | NOWHERE =>
    have hLF : letterFail guess result (guess.getD 0 26) = true := by
      unfold letterFail
      rw [List.any_eq_true]
      exact ⟨_, hzip0, by rw [hr0]; simp⟩
    apply List.ne_nil_of_mem
      (a := exactlySet dict (guess.getD 0 26) (obsCount guess result (guess.getD 0 26)))
    apply List.mem_append.mpr
    refine Or.inr (List.mem_filterMap.mpr ⟨_, List.mem_range.mpr hc0, ?_⟩)
    rw [if_pos (by rw [hLF])]

theorem mem_processResultGroup_iff_sets (dict : List Word) (guess : Word)
    (result : List PositionResult) (i : Nat)
    (hne : intersectHereSets dict guess result ++ letterSets dict guess result ≠ []) :
    i ∈ processResultGroup dict guess result ↔
      i < dict.length ∧
      (∀ s ∈ intersectHereSets dict guess result, i ∈ s) ∧
      (∀ s ∈ letterSets dict guess result, i ∈ s) ∧
      (∀ s ∈ excludeSets dict guess result, i ∉ s) := by
  unfold processResultGroup
  cases happ : intersectHereSets dict guess result ++ letterSets dict guess result with
  | nil => exact absurd happ hne
  | cons s rest =>
    rw [mem_foldl_sdiff, mem_foldl_inter]
    constructor
    · rintro ⟨⟨h1, h2⟩, h3⟩
      have hall : ∀ t ∈ intersectHereSets dict guess result ++ letterSets dict guess result,
          i ∈ t := by
        intro t ht
        rw [happ] at ht
        rcases List.mem_cons.mp ht with h | h
        · subst h; exact h1
        · exact h2 t h
      have hirange : i < dict.length := by
        have hs : s ∈ intersectHereSets dict guess result ++ letterSets dict guess result := by
          rw [happ]; exact List.mem_cons_self _ _
        have := sets_subset_range dict guess result s hs h1
        simpa using this
      exact ⟨hirange,
        fun t ht => hall t (List.mem_append.mpr (Or.inl ht)),
        fun t ht => hall t (List.mem_append.mpr (Or.inr ht)),
        h3⟩
    · rintro ⟨hirange, hint, hlet, hexc⟩
      have hall : ∀ t ∈ intersectHereSets dict guess result ++ letterSets dict guess result,
          i ∈ t := by
        intro t ht
        rcases List.mem_append.mp ht with h | h
        · exact hint t h
        · exact hlet t h
      refine ⟨⟨hall s (by rw [happ]; exact List.mem_cons_self _ _), ?_⟩, hexc⟩
      intro t ht
      exact hall t (by rw [happ]; exact List.mem_cons_of_mem _ ht)

theorem mem_processResultGroup_iff_compare
    (dict : List Word) (L : Nat) (hwf : WFDict dict L)
    (guess : Word) (hguess : guess ∈ dict)
    (result : List PositionResult) (hrlen : result.length = L)
    (hnone : ∀ r ∈ result, r ≠ PositionResult.NONE)
    (hvalid : isValid result guess = true)
    (i : Nat) (hi : i < dict.length) :
    i ∈ processResultGroup dict guess result ↔
      compare guess (wordAt dict i) = result := by
  obtain ⟨hL, hwords⟩ := hwf
  have hgL : guess.length = L := (hwords guess hguess).1
  have hglet : ∀ c ∈ guess, c < 26 := (hwords guess hguess).2.1
  have hwmem : wordAt dict i ∈ dict := by
    unfold wordAt
    rw [List.getD_eq_getElem _ _ hi]
    exact List.getElem_mem hi
  have hwL : (wordAt dict i).length = L := (hwords _ hwmem).1
  have hlen : guess.length = (wordAt dict i).length := by omega
  have hrlen' : result.length = guess.length := by omega
  have hgood := goodOrderT_of_isValid guess (wordAt dict i) result hlen hrlen' hvalid
  rw [compare_eq_iff_matchConds guess (wordAt dict i) result hlen hrlen' hnone hgood]
  have hne := intersect_ne_nil dict guess result (by omega) hglet hrlen' hnone
  rw [mem_processResultGroup_iff_sets dict guess result i hne]
  rw [forall_mem_intersectHereSets, forall_mem_letterSets, forall_mem_excludeSets]
  have hremlen : ((guess.zip (wordAt dict i)).zip result).length = guess.length := by
    simp only [List.length_zip]
    omega
  unfold matchConds
  rw [forall_mem_zip_zip]
  constructor
  · rintro ⟨_, hint, ⟨hexact, hatleast⟩, hexc⟩
    refine ⟨?_, ?_, ?_⟩
    · intro k hk
      rw [hremlen] at hk
      have hkr : k < result.length := by omega
      have hrk : result.getD k .NONE ∈ result := by
        rw [List.getD_eq_getElem _ _ hkr]
        exact List.getElem_mem hkr
      cases hr : result.getD k PositionResult.NONE with
      | NONE => exact absurd hr (hnone _ hrk)
      | HERE =>
        have := (mem_hereSet dict k (guess.getD k 26) i).mp (hint k hk hr)
        simp only
        constructor
        · intro _
          exact this.2.symm
        · intro _
          trivial
      | ELSEWHERE =>
        have hnot := hexc k hk (Or.inl hr)
        rw [mem_hereSet] at hnot
        simp only
        constructor
        · intro habs
          exact absurd habs (by simp)
        · intro heq
          exact absurd ⟨hi, heq.symm⟩ hnot
      | NOWHERE =>
        have hnot := hexc k hk (Or.inr hr)
        rw [mem_hereSet] at hnot
        simp only
        constructor
        · intro habs
          exact absurd habs (by simp)
        · intro heq
          exact absurd ⟨hi, heq.symm⟩ hnot
    · intro c hLF
      have hc : c < 26 := hglet c (letterFail_letter_mem hLF)
      have := (mem_exactlySet dict c (obsCount guess result c) i).mp (hexact c hc hLF)
      exact this.2
    · intro c hLF hobs
      have hc : c < 26 := hglet c (obsCount_pos_letter_mem hobs)
      have := (mem_atLeastSet dict c (obsCount guess result c) i).mp (hatleast c hc hLF hobs)
      exact this.2.2
  · rintro ⟨hA, hEx, hAl⟩
    refine ⟨hi, ?_, ⟨?_, ?_⟩, ?_⟩
    · intro k hk hH
      rw [mem_hereSet]
      refine ⟨hi, ?_⟩
      have := (hA k (by omega)).mp hH
      exact this.symm
    · intro c _ hLF
      rw [mem_exactlySet]
      exact ⟨hi, hEx c hLF⟩
    · intro c _ hLF hobs
      rw [mem_atLeastSet]
      exact ⟨hi, by omega, hAl c hLF hobs⟩
    · intro k hk hEN
      rw [mem_hereSet]
      rintro ⟨_, heq⟩
      have := (hA k (by omega)).mpr heq.symm
      rcases hEN with h | h <;> rw [h] at this <;> exact PositionResult.noConfusion this

/-! ### The decode of an encode, and the per-guess partition of
`WordleEngine::ProcessWords` -/

theorem toNat_lt {r : PositionResult} (h : r ≠ PositionResult.NONE) : r.toNat < 3 := by
  cases r <;> simp_all [PositionResult.toNat]

theorem ofDigit_toNat {r : PositionResult} (h : r ≠ PositionResult.NONE) :
    PositionResult.ofDigit r.toNat = r := by
  cases r <;> simp_all [PositionResult.toNat, PositionResult.ofDigit]

theorem calcIDFrom_factor (rs : List PositionResult) :
    ∀ base acc, calcIDFrom rs base acc = acc + base * calcID rs := by
  induction rs with
  | nil => intro base acc; simp [calcIDFrom, calcID]
  | cons r rest ih =>
    intro base acc
    simp only [calcIDFrom, calcID]
    rw [ih (base * 3), ih 3 (0 + r.toNat * 1)]
    ring

theorem calcID_cons (r : PositionResult) (rest : List PositionResult) :
    calcID (r :: rest) = r.toNat + 3 * calcID rest := by
  show calcIDFrom (r :: rest) 1 0 = r.toNat + 3 * calcID rest
  simp only [calcIDFrom]
  rw [calcIDFrom_factor]
  ring

theorem calcID_lt (rs : List PositionResult) (h : ∀ r ∈ rs, r ≠ PositionResult.NONE) :
    calcID rs < 3 ^ rs.length := by
  induction rs with
  | nil => simp [calcID, calcIDFrom]
  | cons r rest ih =>
    rw [calcID_cons, List.length_cons, pow_succ]
    have h1 : r.toNat < 3 := toNat_lt (h r (List.mem_cons_self _ _))
    have h2 : calcID rest < 3 ^ rest.length :=
      ih (fun x hx => h x (List.mem_cons_of_mem _ hx))
    calc r.toNat + 3 * calcID rest < 3 + 3 * calcID rest := by omega
      _ = 3 * (calcID rest + 1) := by ring
      _ ≤ 3 * 3 ^ rest.length := by omega
      _ = 3 ^ rest.length * 3 := by ring

theorem lookupDigits_no_none (L : Nat) :
    ∀ code < 3 ^ L, ∀ r ∈ lookupDigits L code, r ≠ PositionResult.NONE := by
  induction L with
  | zero => intro code _ r hr; simp [lookupDigits] at hr
  | succ L ih =>
    intro code h r hr
    have hpow : 0 < 3 ^ L := Nat.pos_pow_of_pos L (by norm_num)
    have hcur : code / 3 ^ L < 3 := Nat.div_lt_of_lt_mul (by rw [← pow_succ]; exact h)
    have hmod := Nat.mod_add_div' code (3 ^ L)
    have hrem : code - code / 3 ^ L * 3 ^ L = code % 3 ^ L := by omega
    simp only [lookupDigits, List.mem_append, List.mem_singleton] at hr
    rcases hr with hr | hr
    · rw [hrem] at hr
      exact ih _ (Nat.mod_lt _ hpow) r hr
    · subst hr
      unfold PositionResult.ofDigit
      interval_cases h3 : code / 3 ^ L <;> simp
  

theorem lookupDigits_calcID (rs : List PositionResult)
    (hnone : ∀ r ∈ rs, r ≠ PositionResult.NONE) :
    lookupDigits rs.length (calcID rs) = rs := by
  induction rs using List.reverseRecOn with
  | nil => rfl
  | append_singleton ys y ih =>
    have hys : calcID ys < 3 ^ ys.length :=
      calcID_lt ys (fun r hr => hnone r (List.mem_append.mpr (Or.inl hr)))
    have hynone : y ≠ PositionResult.NONE :=
      hnone y (List.mem_append.mpr (Or.inr (List.mem_singleton_self y)))
    have hlen : (ys ++ [y]).length = ys.length + 1 := by simp
    rw [hlen, calcID_append]
    simp only [lookupDigits]
    have hpow : 0 < 3 ^ ys.length := Nat.pos_pow_of_pos _ (by norm_num)
    have hcur : (calcID ys + y.toNat * 3 ^ ys.length) / 3 ^ ys.length = y.toNat := by
      rw [Nat.add_mul_div_right _ _ hpow, Nat.div_eq_of_lt hys]
      omega
    rw [hcur]
    have hrem : calcID ys + y.toNat * 3 ^ ys.length - y.toNat * 3 ^ ys.length = calcID ys := by
      omega
    rw [hrem, ih (fun r hr => hnone r (List.mem_append.mpr (Or.inl hr))), ofDigit_toNat hynone]

theorem buildFull_length (dict : List Word) (L : Nat) (guess : Word) :
    (buildFull dict L guess).length = 3 ^ L := by
  simp [buildFull]

theorem buildFull_getD (dict : List Word) (L : Nat) (guess : Word)
    {rid : Nat} (hrid : rid < 3 ^ L) :
    (buildFull dict L guess).getD rid ∅ =
      if isValid (lookupDigits L rid) guess then
        processResultGroup dict guess (lookupDigits L rid)
      else ∅ := by
  have h : rid < (buildFull dict L guess).length := by rw [buildFull_length]; exact hrid
  rw [List.getD_eq_getElem _ _ h]
  unfold buildFull
  rw [List.getElem_map]
  rw [List.getElem_range]

theorem compare_length (guess w : Word) (hlen : guess.length = w.length) :
    (compare guess w).length = guess.length := by
  rw [compare, pass2_length, List.length_zip, hlen, min_self]

theorem compare_no_none (guess w : Word) :
    ∀ r ∈ compare guess w, r ≠ PositionResult.NONE :=
  pass2_no_none _ _

theorem resultCode_lt (guess w : Word) (hlen : guess.length = w.length) :
    resultCode guess w < 3 ^ guess.length := by
  have h1 := calcID_lt (compare guess w) (compare_no_none guess w)
  rw [compare_length guess w hlen] at h1
  exact h1

theorem lookupDigits_resultCode (guess w : Word) (hlen : guess.length = w.length) :
    lookupDigits guess.length (resultCode guess w) = compare guess w := by
  have := lookupDigits_calcID (compare guess w) (compare_no_none guess w)
  rw [compare_length guess w hlen] at this
  exact this

/-- Membership of a word id in the group that `ProcessWords` stores for a result
id: a word lies in group `rid` exactly when comparing the guess against it
yields `rid`. -/
theorem mem_buildFull_iff (dict : List Word) (L : Nat) (hwf : WFDict dict L)
    (guess : Word) (hguess : guess ∈ dict) {rid : Nat} (hrid : rid < 3 ^ L)
    {i : Nat} (hi : i < dict.length) :
    i ∈ (buildFull dict L guess).getD rid ∅ ↔
      resultCode guess (wordAt dict i) = rid := by
  have hgL : guess.length = L := (hwf.2 guess hguess).1
  have hwmem : wordAt dict i ∈ dict := by
    unfold wordAt
    rw [List.getD_eq_getElem _ _ hi]
    exact List.getElem_mem hi
  have hwL : (wordAt dict i).length = L := (hwf.2 _ hwmem).1
  have hlen : guess.length = (wordAt dict i).length := by omega
  have hrlen : (lookupDigits L rid).length = L := lookupDigits_length L rid
  have hnone := lookupDigits_no_none L rid hrid
  rw [buildFull_getD dict L guess hrid]
  cases hval : isValid (lookupDigits L rid) guess with
  | true =>
    rw [if_pos rfl]
    rw [mem_processResultGroup_iff_compare dict L hwf guess hguess _ hrlen hnone hval i hi]
    constructor
    · intro h
      rw [resultCode, h]
      rw [← hrlen] at hrid ⊢
      exact calcID_lookupDigits _ _ hrid
    · intro h
      have h2 := lookupDigits_resultCode guess (wordAt dict i) hlen
      rw [h, hgL] at h2
      exact h2.symm
  | false =>
    rw [if_neg Bool.false_ne_true]
    simp only [Finset.not_mem_empty, false_iff]
    intro h
    have h2 := lookupDigits_resultCode guess (wordAt dict i) hlen
    rw [h, hgL] at h2
    have h3 := isValid_compare guess (wordAt dict i) hlen
    rw [← h2, hval] at h3
    exact Bool.noConfusion h3

theorem mem_foldl_union (l : List (Finset Nat)) (init : Finset Nat) (x : Nat) :
    x ∈ l.foldl (· ∪ ·) init ↔ x ∈ init ∨ ∃ s ∈ l, x ∈ s := by
  induction l generalizing init with
  | nil => simp
  | cons s rest ih =>
    rw [List.foldl_cons, ih]
    simp only [Finset.mem_union, List.mem_cons]
    constructor
    · rintro ((h | h) | ⟨t, ht, hx⟩)
      · exact Or.inl h
      · exact Or.inr ⟨s, Or.inl rfl, h⟩
      · exact Or.inr ⟨t, Or.inr ht, hx⟩
    · rintro (h | ⟨t, ht, hx⟩)
      · exact Or.inl (Or.inl h)
      · rcases ht with h | h
        · subst h; exact Or.inl (Or.inr hx)
        · exact Or.inr ⟨t, h, hx⟩

theorem processResultGroup_subset (dict : List Word) (guess : Word)
    (result : List PositionResult) :
    processResultGroup dict guess result ⊆ Finset.range dict.length := by
  unfold processResultGroup
  cases happ : intersectHereSets dict guess result ++ letterSets dict guess result with
  | nil => simp
  | cons s rest =>
    intro i hi
    rw [mem_foldl_sdiff, mem_foldl_inter] at hi
    apply sets_subset_range dict guess result s (by rw [happ]; exact List.mem_cons_self _ _)
    exact hi.1.1

theorem buildFull_sets_subset (dict : List Word) (L : Nat) (guess : Word) :
    ∀ s ∈ buildFull dict L guess, s ⊆ Finset.range dict.length := by
  intro s hs
  obtain ⟨rid, _, hrid⟩ := List.mem_map.mp hs
  by_cases hval : isValid (lookupDigits L rid) guess = true
  · rw [if_pos hval] at hrid
    rw [← hrid]
    exact processResultGroup_subset dict guess _
  · rw [if_neg hval] at hrid
    rw [← hrid]
    simp

/-- C1: for a well-formed loaded dictionary, every guess word in it and every
result code valid for the guess, the set computed by `ProcessResultGroup` over
the full dictionary contains a word id exactly when comparing the guess against
that word produces the code; in particular every word lies in the group of its
own comparison result. -/
theorem processResultGroup_narrow_exact (dict : List Word) (L : Nat)
    (hwf : WFDict dict L) (guess : Word) (hguess : guess ∈ dict)
    (r : Nat) (hr : r < 3 ^ L)
    (hvalid : isValid (lookupDigits L r) guess = true) :
    (∀ i < dict.length,
      (i ∈ processResultGroup dict guess (lookupDigits L r) ↔
        resultCode guess (wordAt dict i) = r)) ∧
    (∀ i < dict.length,
      i ∈ processResultGroup dict guess (compare guess (wordAt dict i))) := by
  have hgL : guess.length = L := (hwf.2 guess hguess).1
  constructor
  · intro i hi
    have hwmem : wordAt dict i ∈ dict := by
      unfold wordAt
      rw [List.getD_eq_getElem _ _ hi]
      exact List.getElem_mem hi
    have hwL : (wordAt dict i).length = L := (hwf.2 _ hwmem).1
    have hlen : guess.length = (wordAt dict i).length := by omega
    rw [mem_processResultGroup_iff_compare dict L hwf guess hguess _
      (lookupDigits_length L r) (lookupDigits_no_none L r hr) hvalid i hi]
    constructor
    · intro h
      rw [resultCode, h]
      exact calcID_lookupDigits L r hr
    · intro h
      have h2 := lookupDigits_resultCode guess (wordAt dict i) hlen
      rw [h, hgL] at h2
      exact h2.symm
  · intro i hi
    have hwmem : wordAt dict i ∈ dict := by
      unfold wordAt
      rw [List.getD_eq_getElem _ _ hi]
      exact List.getElem_mem hi
    have hwL : (wordAt dict i).length = L := (hwf.2 _ hwmem).1
    have hlen : guess.length = (wordAt dict i).length := by omega
    rw [mem_processResultGroup_iff_compare dict L hwf guess hguess _
      (by rw [compare_length guess _ hlen]; exact hgL) (compare_no_none guess _)
      (isValid_compare guess _ hlen) i hi]

/-- Witness for C1 on the toy dictionary `ab, ac, bc` with guess `ab` and the
result code of `H,N`. -/
theorem processResultGroup_narrow_exact_witness :
    WFDict [[0, 1], [0, 2], [1, 2]] 2 ∧ [0, 1] ∈ [[0, 1], [0, 2], [1, 2]] ∧
    2 < 3 ^ 2 ∧ isValid (lookupDigits 2 2) [0, 1] = true ∧
    ((∀ i < ([[0, 1], [0, 2], [1, 2]] : List Word).length,
      (i ∈ processResultGroup [[0, 1], [0, 2], [1, 2]] [0, 1] (lookupDigits 2 2) ↔
        resultCode [0, 1] (wordAt [[0, 1], [0, 2], [1, 2]] i) = 2)) ∧
    (∀ i < ([[0, 1], [0, 2], [1, 2]] : List Word).length,
      i ∈ processResultGroup [[0, 1], [0, 2], [1, 2]] [0, 1]
        (compare [0, 1] (wordAt [[0, 1], [0, 2], [1, 2]] i)))) :=
  ⟨by decide, by decide, by decide, by decide,
    processResultGroup_narrow_exact [[0, 1], [0, 2], [1, 2]] 2 (by decide) [0, 1]
      (by decide) 2 (by decide) (by decide)⟩

/-- C3: for a well-formed loaded dictionary and a guess in it, the groups built
by `ProcessWords` are pairwise disjoint, the union of the non-empty groups is
the full index set, and groups of result codes invalid for the guess are
empty. -/
theorem buildFull_partition (dict : List Word) (L : Nat) (hwf : WFDict dict L)
    (guess : Word) (hguess : guess ∈ dict) :
    (∀ r1 r2, r1 < 3 ^ L → r2 < 3 ^ L → r1 ≠ r2 →
      (buildFull dict L guess).getD r1 ∅ ∩ (buildFull dict L guess).getD r2 ∅ = ∅) ∧
    (((buildFull dict L guess).filter (fun s => s ≠ ∅)).foldl (· ∪ ·) ∅ =
      Finset.range dict.length) ∧
    (∀ rid, rid < 3 ^ L → isValid (lookupDigits L rid) guess = false →
      (buildFull dict L guess).getD rid ∅ = ∅) := by
  refine ⟨?_, ?_, ?_⟩
  · intro r1 r2 hr1 hr2 hne
    apply Finset.eq_empty_of_forall_not_mem
    intro i hi
    rw [Finset.mem_inter] at hi
    have hlt1 : r1 < (buildFull dict L guess).length := by rw [buildFull_length]; exact hr1
    have hi1 : i < dict.length := by
      have := buildFull_sets_subset dict L guess _
        (by rw [List.getD_eq_getElem _ _ hlt1]; exact List.getElem_mem hlt1) hi.1
      simpa using this
    have h1 := (mem_buildFull_iff dict L hwf guess hguess hr1 hi1).mp hi.1
    have h2 := (mem_buildFull_iff dict L hwf guess hguess hr2 hi1).mp hi.2
    omega
  · apply Finset.ext
    intro i
    rw [mem_foldl_union]
    constructor
    · rintro (h | ⟨s, hs, hmem⟩)
      · simp at h
      · rw [List.mem_filter] at hs
        exact buildFull_sets_subset dict L guess s hs.1 hmem
    · intro hi
      rw [Finset.mem_range] at hi
      have hwmem : wordAt dict i ∈ dict := by
        unfold wordAt
        rw [List.getD_eq_getElem _ _ hi]
        exact List.getElem_mem hi
      have hgL : guess.length = L := (hwf.2 guess hguess).1
      have hwL : (wordAt dict i).length = L := (hwf.2 _ hwmem).1
      have hlen : guess.length = (wordAt dict i).length := by omega
      have hrc : resultCode guess (wordAt dict i) < 3 ^ L := by
        have := resultCode_lt guess (wordAt dict i) hlen
        rw [hgL] at this
        exact this
      have hmem : i ∈ (buildFull dict L guess).getD (resultCode guess (wordAt dict i)) ∅ :=
        (mem_buildFull_iff dict L hwf guess hguess hrc hi).mpr rfl
      have hlt : resultCode guess (wordAt dict i) < (buildFull dict L guess).length := by
        rw [buildFull_length]; exact hrc
      refine Or.inr ⟨(buildFull dict L guess).getD (resultCode guess (wordAt dict i)) ∅, ?_, hmem⟩
      rw [List.mem_filter]
      constructor
      · rw [List.getD_eq_getElem _ _ hlt]
        exact List.getElem_mem hlt
      · simp only [decide_eq_true_eq]
        exact Finset.ne_empty_of_mem hmem
  · intro rid hrid hinval
    rw [buildFull_getD dict L guess hrid, if_neg (by rw [hinval]; exact Bool.noConfusion)]

/-- Witness for C3 on the toy dictionary `ab, ac, bc` with guess `ab`. -/
theorem buildFull_partition_witness :
    WFDict [[0, 1], [0, 2], [1, 2]] 2 ∧ [0, 1] ∈ [[0, 1], [0, 2], [1, 2]] ∧
    ((∀ r1 r2, r1 < 3 ^ 2 → r2 < 3 ^ 2 → r1 ≠ r2 →
      (buildFull [[0, 1], [0, 2], [1, 2]] 2 [0, 1]).getD r1 ∅ ∩
        (buildFull [[0, 1], [0, 2], [1, 2]] 2 [0, 1]).getD r2 ∅ = ∅) ∧
    (((buildFull [[0, 1], [0, 2], [1, 2]] 2 [0, 1]).filter (fun s => s ≠ ∅)).foldl
        (· ∪ ·) ∅ = Finset.range ([[0, 1], [0, 2], [1, 2]] : List Word).length) ∧
    (∀ rid, rid < 3 ^ 2 → isValid (lookupDigits 2 rid) [0, 1] = false →
      (buildFull [[0, 1], [0, 2], [1, 2]] 2 [0, 1]).getD rid ∅ = ∅)) :=
  ⟨by decide, by decide,
    buildFull_partition [[0, 1], [0, 2], [1, 2]] 2 (by decide) [0, 1] (by decide)⟩

/-- C4: for every word length strictly between 0 and 15 and every code below
`3 ^ L`, decoding the code into a length-`L` outcome sequence and re-encoding
it yields the original code. -/
theorem encode_decode_roundtrip (L code : Nat) (hL0 : 0 < L) (hL15 : L < 15)
    (hcode : code < 3 ^ L) : calcID (lookupDigits L code) = code :=
  calcID_lookupDigits L code hcode

/-- Witness for C4 at length 5 and code 180. -/
theorem encode_decode_roundtrip_witness :
    0 < 5 ∧ 5 < 15 ∧ 180 < 3 ^ 5 ∧ calcID (lookupDigits 5 180) = 180 :=
  ⟨by decide, by decide, by decide,
    encode_decode_roundtrip 5 180 (by decide) (by decide) (by decide)⟩

/-- C7 counterexample: the claim checks validity against the answer, and that
fails on the equal-length pair guess `zdc`, answer `ccd`, whose comparison is
`N,E,E` while `ccd` repeats `c` at the NOWHERE and an ELSEWHERE position. -/
theorem compare_isValid_answer_cex :
    (strToWord "zdc").length = (strToWord "ccd").length ∧
    isValid (compare (strToWord "zdc") (strToWord "ccd")) (strToWord "ccd") = false := by
  constructor
  · rfl
  · rfl

/-- C7 amended: the outcome of comparing a guess against an equal-length answer
is always valid for the guess (the word `ProcessWords` checks validity
against), not necessarily for the answer. -/
theorem compare_isValid_guess (guess w : Word) (hlen : guess.length = w.length) :
    isValid (compare guess w) guess = true :=
  isValid_compare guess w hlen

/-- Witness for the amended C7 on guess `crane`, answer `slate`. -/
theorem compare_isValid_guess_witness :
    (strToWord "crane").length = (strToWord "slate").length ∧
    isValid (compare (strToWord "crane") (strToWord "slate")) (strToWord "crane") = true :=
  ⟨by decide, compare_isValid_guess (strToWord "crane") (strToWord "slate") (by decide)⟩

/-- C8 counterexample: comparing guess `crane` against answer `slate` does not
produce the claimed sequence `N,E,N,N,H`. -/
theorem crane_slate_code_cex :
    compare (strToWord "crane") (strToWord "slate") ≠
      [PositionResult.NOWHERE, PositionResult.ELSEWHERE, PositionResult.NOWHERE,
        PositionResult.NOWHERE, PositionResult.HERE] := by
  decide

/-- C8 amended: comparing guess `crane` against answer `slate` yields
`N,N,H,N,H` (`a` and `e` match exactly; `c`, `r`, `n` are absent), and the
resulting code is the encode of that sequence. -/
theorem crane_slate_code :
    compare (strToWord "crane") (strToWord "slate") =
      [PositionResult.NOWHERE, PositionResult.NOWHERE, PositionResult.HERE,
        PositionResult.NOWHERE, PositionResult.HERE] ∧
    resultCode (strToWord "crane") (strToWord "slate") =
      calcID [PositionResult.NOWHERE, PositionResult.NOWHERE, PositionResult.HERE,
        PositionResult.NOWHERE, PositionResult.HERE] := by
  constructor
  · decide
  · decide

/-- C9: `AddClue` intersects the current candidate set with a stored group, so
the candidate set never grows: the result is a subset of, and no larger than,
the set before the commit. -/
theorem addClue_monotone (dict : List Word) (L : Nat) (cur : Finset Nat)
    (guess : Word) (result : List PositionResult) :
    addClue dict L cur guess result ⊆ cur ∧
      (addClue dict L cur guess result).card ≤ cur.card :=
  ⟨Finset.inter_subset_left, Finset.card_le_card Finset.inter_subset_left⟩

theorem obsCount_le_count (w : Word) (result : List PositionResult) (c : Nat) :
    obsCount w result c ≤ w.count c := by
  unfold obsCount
  induction w generalizing result with
  | nil => simp
  | cons a rest ih =>
    cases result with
    | nil => simp
    | cons r rrest =>
      rw [List.zip_cons_cons, List.countP_cons, List.count_cons]
      have := ih rrest
      by_cases hac : a = c
      · subst hac
        simp only [beq_self_eq_true, if_true]
        cases r <;> simp <;> omega
      · have h1 : (a == c) = false := by simpa using hac
        simp only [h1, Bool.false_and, if_false]
        omega

/-- C10 counterexample: `ProcessClues` does not clamp — a 5-letter word whose
letter repeats 5 times drives the `exactly` index to 5, past the bound 4. -/
theorem clueIndex_unclamped_cex :
    clueIndexBound (strToWord "aaaaa") 0 = 5 ∧
      ¬(clueIndexBound (strToWord "aaaaa") 0 ≤ MAX_LETTER_REPEAT) := by
  constructor
  · rfl
  · decide

/-- C10 amended: no clamping is performed; `ProcessClues` indexes the letter
arrays at the exact repeat count, and the `ProcessResultGroup` letter-count
queries use the observed HERE/ELSEWHERE count, which never exceeds it.  All
index accesses stay within the bound 4 precisely when every letter of the word
appears at most 4 times. -/
theorem clueIndex_unclamped_bound (w : Word) (c : Nat)
    (hw : ∀ d ∈ w, w.count d ≤ MAX_LETTER_REPEAT) :
    clueIndexBound w c ≤ MAX_LETTER_REPEAT ∧
      ∀ result, obsCount w result c ≤ clueIndexBound w c := by
  constructor
  · by_cases hc : c ∈ w
    · exact hw c hc
    · unfold clueIndexBound
      rw [List.count_eq_zero.mpr hc]
      unfold MAX_LETTER_REPEAT
      omega
  · intro result
    exact obsCount_le_count w result c

/-- Witness for the amended C10 on the word `crane`. -/
theorem clueIndex_unclamped_bound_witness :
    (∀ d ∈ strToWord "crane", (strToWord "crane").count d ≤ MAX_LETTER_REPEAT) ∧
    (clueIndexBound (strToWord "crane") 4 ≤ MAX_LETTER_REPEAT ∧
      ∀ result, obsCount (strToWord "crane") result 4 ≤
        clueIndexBound (strToWord "crane") 4) :=
  ⟨by decide, clueIndex_unclamped_bound (strToWord "crane") 4 (by decide)⟩

/-- C6 failing input: with the stack `filter "a." ; clue (ab, H N)` over the
dictionary `ab, ac, bc`, popping the clue replays the filter but discards its
result, leaving the full dictionary instead of the filtered set the remaining
entries prescribe. -/
theorem commandPop_filter_discarded :
    (commandPop [[0, 1], [0, 2], [1, 2]] 2
        [ClueEntry.filt [some 0, none] [] [],
         ClueEntry.clue [0, 1] [PositionResult.HERE, PositionResult.NOWHERE]]).2 ≠
      applyEntries [[0, 1], [0, 2], [1, 2]] 2
        [ClueEntry.filt [some 0, none] [] []] := by
  decide

theorem valFold_acc (ds : List Nat) :
    ∀ acc, ds.foldl (fun a d => a * 2 ^ 16 + d) acc =
      acc * 2 ^ (16 * ds.length) + valFold ds := by
  induction ds with
  | nil => intro acc; simp [valFold]
  | cons d rest ih =>
    intro acc
    rw [List.foldl_cons, ih]
    have hval : valFold (d :: rest) = d * 2 ^ (16 * rest.length) + valFold rest := by
      show List.foldl _ (0 * 2 ^ 16 + d) rest = _
      rw [ih]
      ring
    rw [hval, List.length_cons]
    have hpow : 2 ^ (16 * (rest.length + 1)) = 2 ^ (16 * rest.length) * 2 ^ 16 := by
      rw [← pow_add]
      congr 1
    rw [hpow]
    ring

theorem valFold_lt (ds : List Nat) (h : ∀ d ∈ ds, d < 2 ^ 16) :
    valFold ds < 2 ^ (16 * ds.length) := by
  induction ds with
  | nil => simp [valFold]
  | cons d rest ih =>
    have hval : valFold (d :: rest) = d * 2 ^ (16 * rest.length) + valFold rest := by
      show List.foldl _ (0 * 2 ^ 16 + d) rest = _
      rw [valFold_acc]
      ring
    rw [hval, List.length_cons]
    have hpow : 2 ^ (16 * (rest.length + 1)) = 2 ^ (16 * rest.length) * 2 ^ 16 := by
      rw [← pow_add]
      congr 1
    rw [hpow]
    have h1 : d < 2 ^ 16 := h d (List.mem_cons_self _ _)
    have h2 : valFold rest < 2 ^ (16 * rest.length) :=
      ih (fun x hx => h x (List.mem_cons_of_mem _ hx))
    calc d * 2 ^ (16 * rest.length) + valFold rest
        < d * 2 ^ (16 * rest.length) + 2 ^ (16 * rest.length) := by omega
      _ = (d + 1) * 2 ^ (16 * rest.length) := by ring
      _ ≤ 2 ^ 16 * 2 ^ (16 * rest.length) := by
          exact Nat.mul_le_mul_right _ (by omega)
      _ = 2 ^ (16 * rest.length) * 2 ^ 16 := by ring

theorem shiftFold_eq_valFold_aux (ds : List Nat) :
    ∀ acc, ds.length ≤ 4 → (∀ d ∈ ds, d < 2 ^ 16) →
      acc < 2 ^ (64 - 16 * ds.length) →
      ds.foldl (fun a d => (a * 2 ^ 16 % 2 ^ 64 + d) % 2 ^ 64) acc =
        ds.foldl (fun a d => a * 2 ^ 16 + d) acc := by
  induction ds with
  | nil => intro acc _ _ _; rfl
  | cons d rest ih =>
    intro acc hlen hds hacc
    have hlen' : rest.length + 1 ≤ 4 := by simpa using hlen
    have hd : d < 2 ^ 16 := hds d (List.mem_cons_self _ _)
    have hexp : 64 - 16 * (rest.length + 1) + 16 = 64 - 16 * rest.length := by omega
    have hsucc : acc + 1 ≤ 2 ^ (64 - 16 * (rest.length + 1)) := hacc
    have hshift : (acc + 1) * 2 ^ 16 ≤ 2 ^ (64 - 16 * rest.length) := by
      calc (acc + 1) * 2 ^ 16 ≤ 2 ^ (64 - 16 * (rest.length + 1)) * 2 ^ 16 :=
            Nat.mul_le_mul_right _ hsucc
        _ = 2 ^ (64 - 16 * (rest.length + 1) + 16) := by rw [pow_add]
        _ = 2 ^ (64 - 16 * rest.length) := by rw [hexp]
    have hlow : 2 ^ (64 - 16 * rest.length) ≤ 2 ^ 64 :=
      Nat.pow_le_pow_right (by omega) (by omega)
    have hmod1 : acc * 2 ^ 16 % 2 ^ 64 = acc * 2 ^ 16 := by
      apply Nat.mod_eq_of_lt
      have h2 : (acc + 1) * 2 ^ 16 = acc * 2 ^ 16 + 2 ^ 16 := by ring
      omega
    have hmod2 : (acc * 2 ^ 16 + d) % 2 ^ 64 = acc * 2 ^ 16 + d := by
      apply Nat.mod_eq_of_lt
      have : acc * 2 ^ 16 + d < (acc + 1) * 2 ^ 16 := by
        have h2 : (acc + 1) * 2 ^ 16 = acc * 2 ^ 16 + 2 ^ 16 := by ring
        omega
      omega
    have hacc' : acc * 2 ^ 16 + d < 2 ^ (64 - 16 * rest.length) := by
      have : acc * 2 ^ 16 + d < (acc + 1) * 2 ^ 16 := by
        have h2 : (acc + 1) * 2 ^ 16 = acc * 2 ^ 16 + 2 ^ 16 := by ring
        omega
      omega
    rw [List.foldl_cons, List.foldl_cons, hmod1, hmod2]
    exact ih _ (by omega) (fun x hx => hds x (List.mem_cons_of_mem _ hx)) hacc'

theorem shiftFold_eq_valFold (ds : List Nat) (hlen : ds.length ≤ 4)
    (hds : ∀ d ∈ ds, d < 2 ^ 16) : shiftFold ds = valFold ds := by
  apply shiftFold_eq_valFold_aux ds 0 hlen hds
  exact Nat.pos_pow_of_pos _ (by norm_num)

theorem valFold_inj : ∀ (ds es : List Nat), ds.length = es.length →
    (∀ d ∈ ds, d < 2 ^ 16) → (∀ e ∈ es, e < 2 ^ 16) →
    valFold ds = valFold es → ds = es := by
  intro ds
  induction ds with
  | nil =>
    intro es hlen _ _ _
    cases es with
    | nil => rfl
    | cons e es' => simp at hlen
  | cons d ds' ih =>
    intro es hlen hds hes hval
    cases es with
    | nil => simp at hlen
    | cons e es' =>
      have hlen' : ds'.length = es'.length := by simpa using hlen
      have hd : d < 2 ^ 16 := hds d (List.mem_cons_self _ _)
      have he : e < 2 ^ 16 := hes e (List.mem_cons_self _ _)
      have hds' : ∀ x ∈ ds', x < 2 ^ 16 := fun x hx => hds x (List.mem_cons_of_mem _ hx)
      have hes' : ∀ x ∈ es', x < 2 ^ 16 := fun x hx => hes x (List.mem_cons_of_mem _ hx)
      have hvd : valFold (d :: ds') = d * 2 ^ (16 * ds'.length) + valFold ds' := by
        show List.foldl _ (0 * 2 ^ 16 + d) ds' = _
        rw [valFold_acc]
        ring
      have hve : valFold (e :: es') = e * 2 ^ (16 * es'.length) + valFold es' := by
        show List.foldl _ (0 * 2 ^ 16 + e) es' = _
        rw [valFold_acc]
        ring
      rw [hvd, hve, ← hlen'] at hval
      have hb1 : valFold ds' < 2 ^ (16 * ds'.length) := valFold_lt ds' hds'
      have hb2 : valFold es' < 2 ^ (16 * ds'.length) := by
        rw [hlen']
        exact valFold_lt es' hes'
      have hde : d = e := by
        rcases Nat.lt_trichotomy d e with h | h | h
        · exfalso
          have : (d + 1) * 2 ^ (16 * ds'.length) ≤ e * 2 ^ (16 * ds'.length) :=
            Nat.mul_le_mul_right _ (by omega)
          have h2 : (d + 1) * 2 ^ (16 * ds'.length) =
              d * 2 ^ (16 * ds'.length) + 2 ^ (16 * ds'.length) := by ring
          omega
        · exact h
        · exfalso
          have : (e + 1) * 2 ^ (16 * ds'.length) ≤ d * 2 ^ (16 * ds'.length) :=
            Nat.mul_le_mul_right _ (by omega)
          have h2 : (e + 1) * 2 ^ (16 * ds'.length) =
              e * 2 ^ (16 * ds'.length) + 2 ^ (16 * ds'.length) := by ring
          omega
      subst hde
      have hvv : valFold ds' = valFold es' := by omega
      rw [ih es' hlen' hds' hes' hvv]

theorem groupIdOf_eq (dict : List Word) (L : Nat) (hwf : WFDict dict L)
    (guess : Word) (hguess : guess ∈ dict) (i : Nat) (hi : i < dict.length) :
    groupIdOf dict L guess i = resultCode guess (wordAt dict i) := by
  have hgL : guess.length = L := (hwf.2 guess hguess).1
  have hwmem : wordAt dict i ∈ dict := by
    unfold wordAt
    rw [List.getD_eq_getElem _ _ hi]
    exact List.getElem_mem hi
  have hwL : (wordAt dict i).length = L := (hwf.2 _ hwmem).1
  have hlen : guess.length = (wordAt dict i).length := by omega
  have hrc : resultCode guess (wordAt dict i) < 3 ^ L := by
    have := resultCode_lt guess (wordAt dict i) hlen
    rw [hgL] at this
    exact this
  have hlt : resultCode guess (wordAt dict i) < (buildFull dict L guess).length := by
    rw [buildFull_length]
    exact hrc
  refine (List.findIdx_eq hlt).mpr ⟨?_, ?_⟩
  · rw [decide_eq_true_eq]
    rw [← List.getD_eq_getElem _ ∅ hlt]
    exact (mem_buildFull_iff dict L hwf guess hguess hrc hi).mpr rfl
  · intro k hk
    rw [decide_eq_false_iff_not]
    rw [← List.getD_eq_getElem _ ∅ (by omega)]
    intro hmem
    have := (mem_buildFull_iff dict L hwf guess hguess (by omega) hi).mp hmem
    omega

/-- C2 counterexample: over the one-letter dictionary `a, b, c`, jointly
evaluating the five guesses `b, a, a, a, a` shifts the first guess's code out
of the 64-bit key, so words `b` and `c` collide in the same joint bucket even
though they produce different ResultCodes against guess `b`. -/
theorem comboKey_collision_cex :
    sameJointBucket [[0], [1], [2]] 1 [[1], [0], [0], [0], [0]] 1 2 ∧
    ¬(∀ g ∈ ([[1], [0], [0], [0], [0]] : List Word),
        resultCode g (wordAt [[0], [1], [2]] 1) =
          resultCode g (wordAt [[0], [1], [2]] 2)) := by
  constructor
  · decide
  · decide

/-- C2 amended: with at most four guesses evaluated jointly and result codes
that fit in 16 bits (`3 ^ L ≤ 2 ^ 16`), the digit-shift key is collision-free:
two dictionary words land in the same joint bucket iff they produce the same
ResultCode against every guess in the set.  (With five or more guesses, or
codes wider than 16 bits, the shift scheme can collide.) -/
theorem comboKey_eq_iff (dict : List Word) (L : Nat) (hwf : WFDict dict L)
    (guesses : List Word) (hguesses : ∀ g ∈ guesses, g ∈ dict)
    (hlen4 : guesses.length ≤ 4) (hsmall : 3 ^ L ≤ 2 ^ 16)
    (i j : Nat) (hi : i < dict.length) (hj : j < dict.length) :
    sameJointBucket dict L guesses i j ↔
      ∀ g ∈ guesses, resultCode g (wordAt dict i) =
        resultCode g (wordAt dict j) := by
  have hkey : ∀ k, k < dict.length →
      comboKey dict L guesses k =
        valFold (guesses.map fun g => resultCode g (wordAt dict k)) := by
    intro k hk
    have hmapeq : (guesses.map fun g => groupIdOf dict L g k) =
        guesses.map fun g => resultCode g (wordAt dict k) := by
      rw [List.map_eq_map_iff]
      intro g hg
      exact groupIdOf_eq dict L hwf g (hguesses g hg) k hk
    have h1 : comboKey dict L guesses k =
        shiftFold (guesses.map fun g => groupIdOf dict L g k) := by
      unfold comboKey shiftFold
      rw [List.foldl_map]
    rw [h1, hmapeq]
    apply shiftFold_eq_valFold
    · rw [List.length_map]
      exact hlen4
    · intro d hd
      obtain ⟨g, hg, hgd⟩ := List.mem_map.mp hd
      have hgL : g.length = L := (hwf.2 g (hguesses g hg)).1
      have hwmem : wordAt dict k ∈ dict := by
        unfold wordAt
        rw [List.getD_eq_getElem _ _ hk]
        exact List.getElem_mem hk
      have hwL : (wordAt dict k).length = L := (hwf.2 _ hwmem).1
      have := resultCode_lt g (wordAt dict k) (by omega)
      rw [hgL] at this
      omega
  have hdig : ∀ k, k < dict.length → ∀ d ∈ (guesses.map fun g =>
      resultCode g (wordAt dict k)), d < 2 ^ 16 := by
    intro k hk d hd
    obtain ⟨g, hg, hgd⟩ := List.mem_map.mp hd
    have hgL : g.length = L := (hwf.2 g (hguesses g hg)).1
    have hwmem : wordAt dict k ∈ dict := by
      unfold wordAt
      rw [List.getD_eq_getElem _ _ hk]
      exact List.getElem_mem hk
    have hwL : (wordAt dict k).length = L := (hwf.2 _ hwmem).1
    have := resultCode_lt g (wordAt dict k) (by omega)
    rw [hgL] at this
    omega
  constructor
  · intro hsame
    have h1 := hkey i hi
    have h2 := hkey j hj
    rw [sameJointBucket, h1, h2] at hsame
    have := valFold_inj _ _ (by rw [List.length_map, List.length_map])
      (hdig i hi) (hdig j hj) hsame
    rw [List.map_eq_map_iff] at this
    exact this
  · intro hsame
    rw [sameJointBucket, hkey i hi, hkey j hj]
    congr 1
    rw [List.map_eq_map_iff]
    exact hsame

/-- Witness for the amended C2 on the toy dictionary `ab, ac, bc` with the two
guesses `ab` and `ac`. -/
theorem comboKey_eq_iff_witness :
    WFDict [[0, 1], [0, 2], [1, 2]] 2 ∧
    (∀ g ∈ ([[0, 1], [0, 2]] : List Word), g ∈ ([[0, 1], [0, 2], [1, 2]] : List Word)) ∧
    ([[0, 1], [0, 2]] : List Word).length ≤ 4 ∧ 3 ^ 2 ≤ 2 ^ 16 ∧
    0 < ([[0, 1], [0, 2], [1, 2]] : List Word).length ∧
    1 < ([[0, 1], [0, 2], [1, 2]] : List Word).length ∧
    (sameJointBucket [[0, 1], [0, 2], [1, 2]] 2 [[0, 1], [0, 2]] 0 1 ↔
      ∀ g ∈ ([[0, 1], [0, 2]] : List Word),
        resultCode g (wordAt [[0, 1], [0, 2], [1, 2]] 0) =
          resultCode g (wordAt [[0, 1], [0, 2], [1, 2]] 1)) :=
  ⟨by decide, by decide, by decide, by decide, by decide, by decide,
    comboKey_eq_iff [[0, 1], [0, 2], [1, 2]] 2 (by decide) [[0, 1], [0, 2]]
      (by decide) (by decide) (by decide) 0 1 (by decide) (by decide)⟩

theorem calcStats_foldl (F : Finset Nat) (groups : List (Finset Nat)) :
    ∀ a : Nat × Nat × Nat × ℝ,
      groups.foldl (calcStatsStep F) a =
        (max a.1 ((groups.map fun g => (g ∩ F).card).foldr max 0),
         a.2.1 + (groups.map fun g => (g ∩ F).card * (g ∩ F).card).sum,
         a.2.2.1 + groups.countP (fun g => (g ∩ F).card == 1),
         a.2.2.2 - (groups.map fun g =>
           if 0 < (g ∩ F).card then
             ((g ∩ F).card : ℝ) / (F.card : ℝ) *
               Real.logb 2 (((g ∩ F).card : ℝ) / (F.card : ℝ))
           else 0).sum) := by
  induction groups with
  | nil =>
    intro a
    simp
  | cons g rest ih =>
    intro a
    rw [List.foldl_cons, ih]
    unfold calcStatsStep
    simp only [List.map_cons, List.foldr_cons, List.sum_cons, List.countP_cons]
    refine Prod.ext ?_ (Prod.ext ?_ (Prod.ext ?_ ?_))
    · simp only
      rw [Nat.max_assoc]
    · simp only
      omega
    · simp only
      have : ((fun g => (g ∩ F).card == 1) g = true) ↔ ((g ∩ F).card = 1) := by
        simp
      by_cases h1 : (g ∩ F).card = 1
      · rw [if_pos h1, if_pos (by simpa using h1)]
        omega
      · rw [if_neg h1, if_neg (by simpa using h1)]
        omega
    · simp only
      ring

theorem foldr_max_spec (l : List Nat) :
    (∀ x ∈ l, x ≤ l.foldr max 0) ∧
      (l.foldr max 0 = 0 ∨ l.foldr max 0 ∈ l) := by
  induction l with
  | nil => simp
  | cons x rest ih =>
    rw [List.foldr_cons]
    constructor
    · intro y hy
      rcases List.mem_cons.mp hy with h | h
      · subst h; exact le_max_left _ _
      · exact le_trans (ih.1 y h) (le_max_right _ _)
    · by_cases hx : rest.foldr max 0 ≤ x
      · rw [max_eq_left hx]
        exact Or.inr (List.mem_cons_self _ _)
      · rw [max_eq_right (le_of_not_le hx)]
        rcases ih.2 with h | h
        · exact Or.inl h
        · exact Or.inr (List.mem_cons_of_mem _ h)

/-- C5: on a per-guess partition and a non-empty filter set, `CalcStats`
reports the maximum intersected group size, the sum of squared intersected
sizes divided by the filter size, the fraction of singleton intersections, and
`-Σ p·log2 p` over the non-empty intersections. -/
theorem calcStats_spec (dict : List Word) (L : Nat) (guess : Word)
    (F : Finset Nat) (hF : 0 < F.card) :
    (∀ g ∈ buildFull dict L guess,
      (g ∩ F).card ≤ (calcStats (buildFull dict L guess) F).max_options) ∧
    ((calcStats (buildFull dict L guess) F).max_options = 0 ∨
      ∃ g ∈ buildFull dict L guess,
        (g ∩ F).card = (calcStats (buildFull dict L guess) F).max_options) ∧
    (calcStats (buildFull dict L guess) F).ave_options =
      (((buildFull dict L guess).map fun g =>
        ((g ∩ F).card * (g ∩ F).card : ℚ)).sum) / (F.card : ℚ) ∧
    (calcStats (buildFull dict L guess) F).solve_p =
      ((buildFull dict L guess).countP (fun g => (g ∩ F).card == 1) : ℚ) /
        (F.card : ℚ) ∧
    (calcStats (buildFull dict L guess) F).entropy =
      -(((buildFull dict L guess).map fun g =>
        if 0 < (g ∩ F).card then
          ((g ∩ F).card : ℝ) / (F.card : ℝ) *
            Real.logb 2 (((g ∩ F).card : ℝ) / (F.card : ℝ))
        else 0).sum) := by
  have hfold := calcStats_foldl F (buildFull dict L guess) (0, 0, 0, 0)
  have hmax : (calcStats (buildFull dict L guess) F).max_options =
      ((buildFull dict L guess).map fun g => (g ∩ F).card).foldr max 0 := by
    unfold calcStats
    rw [hfold]
    simp
  have hspec := foldr_max_spec ((buildFull dict L guess).map fun g => (g ∩ F).card)
  refine ⟨?_, ?_, ?_, ?_, ?_⟩
  · intro g hg
    rw [hmax]
    exact hspec.1 _ (List.mem_map_of_mem _ hg)
  · rw [hmax]
    rcases hspec.2 with h | h
    · exact Or.inl h
    · obtain ⟨g, hg, hgv⟩ := List.mem_map.mp h
      exact Or.inr ⟨g, hg, hgv⟩
  · unfold calcStats
    rw [hfold]
    simp only [Nat.zero_add]
    congr 1
    rw [Nat.cast_list_sum, List.map_map]
    congr 1
    rw [List.map_eq_map_iff]
    intro g _
    simp only [Function.comp_apply]
    push_cast
    rfl
  · unfold calcStats
    rw [hfold]
    simp
  · unfold calcStats
    rw [hfold]
    simp

/-- Witness for C5 on the toy dictionary `ab, ac, bc`, guess `ab`, and the full
filter set. -/
theorem calcStats_spec_witness :
    0 < (Finset.range 3).card ∧
    ∀ g ∈ buildFull [[0, 1], [0, 2], [1, 2]] 2 [0, 1],
      (g ∩ Finset.range 3).card ≤
        (calcStats (buildFull [[0, 1], [0, 2], [1, 2]] 2 [0, 1])
          (Finset.range 3)).max_options :=
  ⟨by decide,
    (calcStats_spec [[0, 1], [0, 2], [1, 2]] 2 [0, 1] (Finset.range 3) (by decide)).1⟩

end WordlePlay
